import Mathlib

/-!
# Verification of the lab0-c queue / list-sort code

Shallow embedding of the two source files:

* `queue.c` (the second, authoritative copy in `src/unnamed/part_000`,
  lines 246-521): a sentinel-anchored circular doubly-linked list of
  `element_t` nodes, each holding a C string `value`, with operations
  `q_insert_head/tail`, `q_remove_head/tail`, `q_size`, `q_delete_dup`,
  `q_swap`, `q_reverse`, `mergeTwo`, `q_mergeSort`, `q_sort`,
  `q_ascend`, `q_descend`.
* `src/list_sort.c`: the Linux-kernel bottom-up "natural" mergesort
  (`merge`, `merge_final`, `list_sort`).

Conventions of the embedding:

* A C string (as used by `strcmp`) is its byte content before the NUL
  terminator, modelled as `List ℕ` (`CStr`); `strcmpLt a b` is
  `strcmp(a,b) < 0`, i.e. strict lexicographic byte order.
* A NUL-terminated singly-linked chain is modelled as a Lean `List` of
  node payloads; the element order head-to-tail is the `next`-chain.
* The circular doubly-linked pointer structure (for the ring-invariant
  claims) is modelled explicitly: nodes are natural-number ids, and a
  state `DL` carries total `next`/`prev` maps that the algorithms
  update pointwise, exactly mirroring the pointer writes of the C code.
* A nullable queue handle is `Option`; `none` is the NULL pointer.
* Functions defined by non-structural recursion in C (the two-chain
  merges, top-down mergesort) are given a structural fuel parameter,
  with the fuel fixed to a provably sufficient value at the wrapper;
  fuel-irrelevance lemmas recover the exact recursion equations.
-/

/-- A C string value: the byte content before the NUL terminator. -/
abbrev CStr := List ℕ

/-- `strcmp(a, b) < 0`: strict lexicographic comparison of byte strings,
exactly the order `strcmp` induces on NUL-terminated C strings. -/
def strcmpLt : CStr → CStr → Bool
  | [], [] => false
  | [], _ :: _ => true
  | _ :: _, [] => false
  | a :: as, b :: bs =>
    if a < b then true
    else if b < a then false
    else strcmpLt as bs

/-- `element_t`: a queue element. For claims that need node identity
(stability), the payload type `α` carries a tag besides the value; the
projection `val` models the `->value` field access. -/
structure Elem (α : Type) where
  tag : ℕ
  value : α
deriving DecidableEq

/-! ## `mergeTwo` and `q_mergeSort` from `queue.c` (lines 404-447)

`mergeTwo(left, right)` repeatedly compares `strcmp(left->value,
right->value) < 0`, taking `left` when true and `right` otherwise
(so equal heads take the RIGHT chain's head), then appends the
non-empty remainder.  `q_mergeSort` splits at the slow/fast midpoint
and recurses.  Both are non-structural, hence the fuel. -/

/-- `mergeTwo` from `queue.c` lines 404-429, on chains of payloads with
value projection `val`; fuel-indexed. -/
def mergeTwoF (val : α → CStr) : ℕ → List α → List α → List α
  | 0, l, r => l ++ r
  | _ + 1, [], r => r
  | _ + 1, l, [] => l
  | fuel + 1, a :: as, b :: bs =>
    if strcmpLt (val a) (val b) then a :: mergeTwoF val fuel as (b :: bs)
    else b :: mergeTwoF val fuel (a :: as) bs

/-- `mergeTwo` with sufficient fuel. -/
def mergeTwo (val : α → CStr) (l r : List α) : List α :=
  mergeTwoF val (l.length + r.length) l r

/-- The number of `slow` advances of the slow/fast split loop of
`q_mergeSort` (lines 437-440), as a function of the list starting at
`fast = head->next`: one advance per two `fast` steps. -/
def fastSteps : List α → ℕ
  | [] => 0
  | [_] => 0
  | _ :: _ :: rest => fastSteps rest + 1

/-- `q_mergeSort` from `queue.c` lines 432-447: split at the node after
`slow` and merge the recursively sorted halves; fuel-indexed. -/
def q_mergeSortF (val : α → CStr) : ℕ → List α → List α
  | 0, l => l
  | _ + 1, [] => []
  | _ + 1, [a] => [a]
  | fuel + 1, a :: b :: rest =>
    let k := fastSteps (b :: rest) + 1
    mergeTwo val
      (q_mergeSortF val fuel ((a :: b :: rest).take k))
      (q_mergeSortF val fuel ((a :: b :: rest).drop k))

/-- `q_mergeSort` with sufficient fuel. -/
def q_mergeSort (val : α → CStr) (l : List α) : List α :=
  q_mergeSortF val l.length l

/-- The element sequence left by `q_sort` (`queue.c` lines 450-466):
empty ring untouched, otherwise the chain is detached and sorted by
`q_mergeSort`.  The `descend` flag is accepted but never read by the
source. -/
def q_sortSeq (val : α → CStr) (l : List α) (descend : Bool) : List α :=
  if l.isEmpty then l else q_mergeSort val l

/-! ## `q_ascend` / `q_descend` (`queue.c` lines 470-512)

The loop starts at `node = head->prev` (the tail) and walks leftwards;
at each step it compares the current node with the node before it and
either deletes that predecessor or moves onto it.  Reading the list
right-to-left this is exactly a `foldr`: the accumulator is the list of
survivors to the right of the element being examined, whose head is the
`node` the C loop currently points at. -/

/-- One backward step of `q_ascend`: delete the predecessor `x` iff
`strcmp(curr->value, prev->value) < 0`. -/
def ascendStep (val : α → CStr) (x : α) (acc : List α) : List α :=
  match acc with
  | [] => [x]
  | c :: _ => if strcmpLt (val c) (val x) then acc else x :: acc

/-- The element sequence left by `q_ascend` (lines 470-489). -/
def q_ascendSeq (val : α → CStr) (l : List α) : List α :=
  l.foldr (ascendStep val) []

/-- One backward step of `q_descend`: delete the predecessor `x` iff
`strcmp(curr->value, prev->value) > 0`. -/
def descendStep (val : α → CStr) (x : α) (acc : List α) : List α :=
  match acc with
  | [] => [x]
  | c :: _ => if strcmpLt (val x) (val c) then acc else x :: acc

/-- The element sequence left by `q_descend` (lines 493-512). -/
def q_descendSeq (val : α → CStr) (l : List α) : List α :=
  l.foldr (descendStep val) []

/-- `q_ascend`, with the C return value (the function returns the
literal `0` on every path, lines 473 and 488). -/
def q_ascend (val : α → CStr) (q : Option (List α)) : Int × Option (List α) :=
  match q with
  | none => (0, none)
  | some l => if l.isEmpty then (0, some l) else (0, some (q_ascendSeq val l))

/-- `q_descend`, with the C return value (`0` on every path). -/
def q_descend (val : α → CStr) (q : Option (List α)) : Int × Option (List α) :=
  match q with
  | none => (0, none)
  | some l => if l.isEmpty then (0, some l) else (0, some (q_descendSeq val l))

/-! ## `q_delete_dup` (`queue.c` lines 346-366)

A single forward pass over the safe iterator; `is_dup` records that the
element just deleted equalled the then-current head.  The guard
`curr->list.next != head` makes the equality test apply only when a
successor exists. -/

/-- The loop of `q_delete_dup`, with the `is_dup` flag explicit. -/
def deleteDupGo (val : α → CStr) : Bool → List α → List α
  | _, [] => []
  | dup, [x] => if dup then [] else [x]
  | dup, x :: y :: rest =>
    if val x = val y then deleteDupGo val true (y :: rest)
    else if dup then deleteDupGo val false (y :: rest)
    else x :: deleteDupGo val false (y :: rest)

/-- The element sequence left by `q_delete_dup` on a non-empty ring. -/
def q_delete_dupSeq (val : α → CStr) (l : List α) : List α :=
  deleteDupGo val false l

/-- `q_delete_dup` with its guard and boolean result (lines 346-366):
`false` for a NULL or empty ring, `true` otherwise. -/
def q_delete_dup (val : α → CStr) (q : Option (List α)) :
    Bool × Option (List α) :=
  match q with
  | none => (false, none)
  | some l =>
    if l.isEmpty then (false, some l) else (true, some (q_delete_dupSeq val l))

/-! ## The thin wrappers (`queue.c` lines 246-343)

Value-level models with an `Option` queue handle (`none` = NULL).
Allocation is assumed to succeed: the claims under study concern the
NULL-handle and buffer behaviour, not `malloc` failure. -/

/-- `q_insert_head` (lines 246-262): `false` on a NULL handle,
otherwise prepend. -/
def q_insert_head (q : Option (List α)) (s : α) : Bool × Option (List α) :=
  match q with
  | none => (false, none)
  | some l => (true, some (s :: l))

/-- `q_insert_tail` (lines 265-281): `false` on a NULL handle,
otherwise append. -/
def q_insert_tail (q : Option (List α)) (s : α) : Bool × Option (List α) :=
  match q with
  | none => (false, none)
  | some l => (true, some (l ++ [s]))

/-- `strncpy(dst, src, n)`: writes exactly `n` bytes at the start of
`dst` (the bytes of `src`, NUL-padded), leaving the rest of `dst`. -/
def strncpy (dst src : List ℕ) (n : ℕ) : List ℕ :=
  src.take n ++ List.replicate (n - src.length) 0 ++ dst.drop n

/-- The buffer write of `q_remove_head`/`q_remove_tail` (lines 290-293,
305-308): `strncpy(sp, value, bufsize - 1); sp[bufsize - 1] = '\0'`. -/
def copyOut (buf v : List ℕ) (bufsize : ℕ) : List ℕ :=
  (strncpy buf v (bufsize - 1)).set (bufsize - 1) 0

/-- `q_remove_head` (lines 284-296): returns the removed element (not
freed), the remaining queue, and the buffer contents after the
conditional copy. -/
def q_remove_head (q : Option (List CStr)) (sp : Option (List ℕ))
    (bufsize : ℕ) : Option CStr × Option (List CStr) × Option (List ℕ) :=
  match q with
  | none => (none, none, sp)
  | some [] => (none, some [], sp)
  | some (v :: rest) =>
    (some v, some rest, sp.map (fun buf => copyOut buf v bufsize))

/-- `q_remove_tail` (lines 299-311): same with the last element. -/
def q_remove_tail (q : Option (List CStr)) (sp : Option (List ℕ))
    (bufsize : ℕ) : Option CStr × Option (List CStr) × Option (List ℕ) :=
  match q with
  | none => (none, none, sp)
  | some [] => (none, some [], sp)
  | some (v :: rest) =>
    (some ((v :: rest).getLast (by simp)), some ((v :: rest).dropLast),
      sp.map (fun buf => copyOut buf ((v :: rest).getLast (by simp)) bufsize))

/-- `q_size` (lines 314-325): `0` on a NULL handle, else the length. -/
def q_size (q : Option (List α)) : Int :=
  match q with
  | none => 0
  | some l => l.length

/-- The element sequence left by the `q_delete_mid` slow/fast walk
(lines 328-343): remove the node at index `⌊n/2⌋`. -/
def q_delete_mid (q : Option (List α)) : Bool × Option (List α) :=
  match q with
  | none => (false, none)
  | some [] => (false, some [])
  | some (x :: rest) =>
    (true, some ((x :: rest).eraseIdx ((x :: rest).length / 2)))

/-- The pairwise-swap loop of `q_swap` (lines 369-380): `list_move`
of each odd-indexed node before its predecessor. -/
def swapPairs : List α → List α
  | a :: b :: rest => b :: a :: swapPairs rest
  | l => l

/-- `q_swap`: no-op on a NULL handle or empty ring. -/
def q_swap (q : Option (List α)) : Option (List α) :=
  match q with
  | none => none
  | some l => some (swapPairs l)

/-- The element sequence left by `q_reverse` (lines 383-395): the
reversed sequence (the pointer-level loop is modelled separately for
the ring-invariant claim). -/
def q_reverseSeq (q : Option (List α)) : Option (List α) :=
  match q with
  | none => none
  | some l => some l.reverse

/-! ## `list_sort.c`: the bottom-up natural mergesort

The comparator is the C callback `cmp : α → α → Int`; the merge takes
the left element exactly when `cmp a b <= 0` (lines 21 and 61 of
`list_sort.c`).  Chains are Lean lists; the pending stack is a list of
runs, front (`pending`) = newest. -/

/-- `merge` from `list_sort.c` lines 13-40: left-biased two-chain merge
(`cmp(a,b) <= 0` takes `a`); fuel-indexed. -/
def mergeF (cmp : α → α → Int) : ℕ → List α → List α → List α
  | 0, a, b => a ++ b
  | _ + 1, [], b => b
  | _ + 1, a, [] => a
  | fuel + 1, a :: as, b :: bs =>
    if cmp a b ≤ 0 then a :: mergeF cmp fuel as (b :: bs)
    else b :: mergeF cmp fuel (a :: as) bs

/-- `merge` with sufficient fuel. -/
def lmerge (cmp : α → α → Int) (a b : List α) : List α :=
  mergeF cmp (a.length + b.length) a b

/-- The `bits`/`tail` walk of `list_sort`'s main loop (lines 254-268):
descend one pending run per trailing set bit of `bits`; at the first
clear bit, if `bits` is still non-zero, merge the two runs there
(`a = *tail`, `b = a->prev`, replaced by `merge(b, a)`). -/
def lsWalk (cmp : α → α → Int) : ℕ → List (List α) → List (List α)
  | _, [] => []
  | bits, p :: rest =>
    if bits % 2 = 1 then p :: lsWalk cmp (bits / 2) rest
    else if bits ≠ 0 then
      match rest with
      | b :: rest2 => lmerge cmp b p :: rest2
      | [] => [p]
    else p :: rest

/-- One iteration of `list_sort`'s main `do`-loop (lines 253-276) on the
state (pending stack, count): the indicated merge, then one input
element pushed as a size-1 run, then `count++`. -/
def lsStep (cmp : α → α → Int) (st : List (List α) × ℕ) (x : α) :
    List (List α) × ℕ :=
  ([x] :: lsWalk cmp st.2 st.1, st.2 + 1)

/-- The whole main loop of `list_sort` over the detached input chain. -/
def lsLoop (cmp : α → α → Int) (l : List α) : List (List α) × ℕ :=
  l.foldl (lsStep cmp) ([], 0)

/-- The termination phase (lines 278-290): starting from the newest
run, merge in each older pending run (always the older run as the left
merge argument), the last merge being `merge_final`. -/
def lsCollapse (cmp : α → α → Int) : List (List α) → List α
  | [] => []
  | r :: rs => rs.foldl (fun acc p => lmerge cmp p acc) r

/-- The element sequence produced by `list_sort` (lines 222-291):
unchanged for zero or one elements, otherwise main loop plus
termination phase. -/
def list_sortSeq (cmp : α → α → Int) (l : List α) : List α :=
  if l.length ≤ 1 then l else lsCollapse cmp (lsLoop cmp l).1

/-- The run-size profile of the pending stack after `n` elements have
been consumed, front (newest) first; fuel-indexed binary recursion. -/
def runSizesF : ℕ → ℕ → List ℕ
  | 0, _ => []
  | _ + 1, 0 => []
  | _ + 1, 1 => [1]
  | fuel + 1, n + 2 =>
    if (n + 2) % 2 = 0 then
      1 :: 1 :: (runSizesF fuel ((n + 2) / 2)).tail.map (2 * ·)
    else
      1 :: (runSizesF fuel ((n + 2) / 2)).map (2 * ·)

/-- Run-size profile with sufficient fuel. -/
def runSizes (n : ℕ) : List ℕ := runSizesF n n

/-- The sizes `2^i` for the set bits `i` of `n` — the reading of the
pending-stack size profile that claim C5 asserts. -/
def setBitSizes (n : ℕ) : List ℕ :=
  ((List.range n).filter (fun i => n.testBit i)).map (2 ^ ·)

/-! ## Pointer-level model of the doubly-linked ring

For the ring-invariant claim the `next`/`prev` pointer fields are
modelled explicitly: nodes (including the sentinel) are natural-number
ids, and a state carries the two total pointer maps.  Pointer writes
are pointwise function updates.  A NUL-terminated `next`-chain is
passed to the loops as the list of ids it threads, as everywhere in
this embedding. -/

/-- The pointer state: the `next` and `prev` fields of every node. -/
structure DL where
  nxt : ℕ → ℕ
  prv : ℕ → ℕ

/-- `x->next = y`. -/
def setNext (s : DL) (x y : ℕ) : DL := { s with nxt := Function.update s.nxt x y }

/-- `x->prev = y`. -/
def setPrev (s : DL) (x y : ℕ) : DL := { s with prv := Function.update s.prv x y }

/-- Helper for `cyclicNext`: the element following `x` in the list,
wrapping around to `wrap`. -/
def cycNextGo (wrap x : ℕ) : List ℕ → ℕ
  | [] => x
  | [a] => if a = x then wrap else x
  | a :: b :: rest => if a = x then b else cycNextGo wrap x (b :: rest)

/-- The successor of `x` along the cycle spelled by `c` (itself for a
non-member). -/
def cyclicNext (c : List ℕ) (x : ℕ) : ℕ := cycNextGo (c.headD x) x c

/-- The predecessor of `x` along the cycle spelled by `c`. -/
def cyclicPrev (c : List ℕ) (x : ℕ) : ℕ := cyclicNext c.reverse x

/-- The ring invariant of the spec, for the ring whose sentinel is
`sent` and whose nodes (sentinel included) are listed by `nodes`:
pointer maps closed over the ring, `n->prev->next == n` and
`n->next->prev == n` for every node, and the sentinel reachable from
every node by following `next` links. -/
def RingInv (s : DL) (sent : ℕ) (nodes : List ℕ) : Prop :=
  sent ∈ nodes ∧
  ∀ x ∈ nodes, s.nxt x ∈ nodes ∧ s.prv x ∈ nodes ∧
    s.nxt (s.prv x) = x ∧ s.prv (s.nxt x) = x ∧
    ∃ k, s.nxt^[k] x = sent

/-- `s.nxt` spells the NUL-terminated chain `l`: each node's `next`
points at the following chain node. -/
def Spells (s : DL) : List ℕ → Prop
  | [] => True
  | [_] => True
  | x :: y :: rest => s.nxt x = y ∧ Spells s (y :: rest)

/-! ### `q_sort`'s relink phase, pointer level (`queue.c` lines 455-465)

`head->prev->next = NULL` detaches the chain; the merge phase threads
the `next` links along the sorted order (modelled by `writeNexts`);
lines 458-463 walk that chain restoring `prev` (modelled by
`writePrevs`, which also returns the final `curr`); lines 464-465 close
the ring. -/

/-- The `next` links along `curr :: l` left by the merge phase. -/
def writeNexts (s : DL) (curr : ℕ) : List ℕ → DL
  | [] => s
  | n :: rest => writeNexts (setNext s curr n) n rest

/-- The `prev`-restoration walk of `q_sort` lines 458-463; returns the
state and the final `curr`. -/
def writePrevs (s : DL) (curr : ℕ) : List ℕ → DL × ℕ
  | [] => (s, curr)
  | n :: rest => writePrevs (setPrev s n curr) n rest

/-- `q_sort`'s pointer effect on a non-empty ring whose sorted chain is
`chain`: thread `next` along `h :: chain`, restore `prev`, close. -/
def q_sortPtr (s : DL) (h : ℕ) (chain : List ℕ) : DL :=
  let s1 := writeNexts s h chain
  let p := writePrevs s1 h chain
  setPrev (setNext p.1 p.2 h) h p.2

/-! ### `q_reverse`, pointer level (`queue.c` lines 383-395) -/

/-- The reversal loop: read `nex = curr->next`, set `curr->next = pre`
and `curr->prev = nex`, advance; stop once `nex` has wrapped to the
sentinel.  The C loop tests `nex != head` before each body; the first
test (with `nex = NULL`) always passes, so the loop is a do-while on
the ring, bounded here by fuel. -/
def revLoop (h : ℕ) : ℕ → DL → ℕ → ℕ → DL
  | 0, s, _, _ => s
  | fuel + 1, s, pre, curr =>
    let nex := s.nxt curr
    let s2 := setPrev (setNext s curr pre) curr nex
    if nex = h then s2 else revLoop h fuel s2 curr nex

/-- `q_reverse` at the pointer level (`fuel` bounds the ring size; the
theorems instantiate it with the node count). -/
def q_reversePtr (s : DL) (h : ℕ) (fuel : ℕ) : DL :=
  if s.nxt h = h then s else revLoop h fuel s (s.prv h) h

/-! ### `merge_final`, pointer level (`list_sort.c` lines 49-100)

The comparator receives the nodes themselves (`list_cmp_func_t`), so at
the model level it is a function of node ids. -/

/-- The comparison loop of `merge_final` (lines 59-78): emit the lesser
head, linking `tail->next` and `->prev` as it goes; break as soon as
the taken side is exhausted, returning the state, the final `tail`, and
the non-empty remainder of the other side. -/
def mfLoop (cmp : ℕ → ℕ → Int) : ℕ → DL → ℕ → List ℕ → List ℕ → DL × ℕ × List ℕ
  | 0, s, tail, a, b => (s, tail, a ++ b)
  | _ + 1, s, tail, [], b => (s, tail, b)
  | _ + 1, s, tail, a, [] => (s, tail, a)
  | fuel + 1, s, tail, a :: as, b :: bs =>
    if cmp a b ≤ 0 then
      let s2 := setPrev (setNext s tail a) a tail
      match as with
      | [] => (s2, a, b :: bs)
      | _ :: _ => mfLoop cmp fuel s2 a as (b :: bs)
    else
      let s2 := setPrev (setNext s tail b) b tail
      match bs with
      | [] => (s2, b, a :: as)
      | _ :: _ => mfLoop cmp fuel s2 b (a :: as) bs

/-- The tail copy loop of `merge_final` (lines 82-95): walk the
remainder chain setting `prev` links; returns the state and the final
`tail`.  (The periodic `cmp(priv, b, b)` callback at line 91 does not
touch the structure and is elided.) -/
def mfTail (s : DL) (tail : ℕ) : List ℕ → DL × ℕ
  | [] => (s, tail)
  | b :: bs => mfTail (setPrev s b tail) b bs

/-- `merge_final(priv, cmp, head, a, b)` (lines 49-100): the comparison
loop, `tail->next = b`, the tail copy loop, and the closing links
`tail->next = head; head->prev = tail`. -/
def merge_finalPtr (cmp : ℕ → ℕ → Int) (s : DL) (h : ℕ) (a b : List ℕ) : DL :=
  let r := mfLoop cmp (a.length + b.length) s h a b
  let s1 := match r.2.2 with
    | [] => r.1
    | x :: _ => setNext r.1 r.2.1 x
  let p := mfTail s1 r.2.1 r.2.2
  setPrev (setNext p.1 p.2 h) h p.2

/-- `sizeWalk` is `lsWalk`'s action on run lengths (a merged run's
length is the sum of the two inputs' lengths). -/
def sizeWalk : ℕ → List ℕ → List ℕ
  | _, [] => []
  | bits, p :: rest =>
    if bits % 2 = 1 then p :: sizeWalk (bits / 2) rest
    else if bits ≠ 0 then
      match rest with
      | b :: rest2 => (b + p) :: rest2
      | [] => [p]
    else p :: rest

/-- The key-equality induced by a comparator obeying the `list_sort`
contract: `y` and `z` compare equal. -/
def keqB (cmp : α → α → Int) (z y : α) : Bool :=
  decide (cmp y z ≤ 0) && decide (cmp z y ≤ 0)

/-!
# Theorems

First the order facts about `strcmpLt` (it is the strict part of the
total lexicographic order `strcmp` induces), then the claims in order.
-/

theorem strcmpLt_irrefl (a : CStr) : strcmpLt a a = false := by
  induction a with
  | nil => rfl
  | cons x xs ih => simp [strcmpLt, ih]

theorem strcmpLt_trans : ∀ {a b c : CStr}, strcmpLt a b = true →
    strcmpLt b c = true → strcmpLt a c = true
  | [], _ :: _, _ :: _, _, _ => rfl
  | x :: xs, y :: ys, z :: zs, h1, h2 => by
    simp only [strcmpLt] at h1 h2 ⊢
    rcases Nat.lt_trichotomy x y with hxy | rfl | hxy
    · rcases Nat.lt_trichotomy y z with hyz | rfl | hyz
      · simp [show x < z by omega]
      · simp [hxy]
      · simp [show ¬ y < z by omega, hyz] at h2
    · rcases Nat.lt_trichotomy x z with hxz | rfl | hxz
      · simp [hxz]
      · simp only [lt_irrefl, if_false] at h1 h2 ⊢
        exact strcmpLt_trans h1 h2
      · simp [show ¬ x < z by omega, hxz] at h2
    · simp [show ¬ x < y by omega, hxy] at h1

theorem strcmpLt_total : ∀ (a b : CStr),
    strcmpLt a b = true ∨ strcmpLt b a = true ∨ a = b
  | [], [] => Or.inr (Or.inr rfl)
  | [], _ :: _ => Or.inl rfl
  | _ :: _, [] => Or.inr (Or.inl rfl)
  | x :: xs, y :: ys => by
    rcases Nat.lt_trichotomy x y with h | h | h
    · exact Or.inl (by simp [strcmpLt, h])
    · subst h
      rcases strcmpLt_total xs ys with h2 | h2 | h2
      · exact Or.inl (by simp [strcmpLt, h2])
      · exact Or.inr (Or.inl (by simp [strcmpLt, h2]))
      · exact Or.inr (Or.inr (by rw [h2]))
    · exact Or.inr (Or.inl (by simp [strcmpLt, h]))

theorem strcmpLt_asymm {a b : CStr} (h : strcmpLt a b = true) :
    strcmpLt b a = false := by
  by_contra hc
  have := strcmpLt_trans h (Bool.of_not_eq_false hc)
  simp [strcmpLt_irrefl] at this

theorem strcmpLt_neg_trans {a b c : CStr} (h1 : strcmpLt a b = false)
    (h2 : strcmpLt b c = false) : strcmpLt a c = false := by
  by_contra hc
  have hac := Bool.of_not_eq_false hc
  rcases strcmpLt_total a b with h | h | h
  · simp [h] at h1
  · have := strcmpLt_trans h hac
    simp [this] at h2
  · subst h
    simp [hac] at h2

/-- C1: claim property evaluated at the failing input.  The source's
`q_sort` never reads `descend` (`queue.c` line 450 binds it, the body
lines 452-465 never mention it), so with `descend = true` the ring
`"1","2"` (bytes `[49]`, `[50]`) comes out ascending, not
non-increasing as the claim requires. -/
theorem q_sort_ignores_descend :
    q_sortSeq id [[49], [50]] true = [[49], [50]] ∧
    ¬ List.Pairwise (fun a b => strcmpLt a b = false) [[49], [50]] := by
  constructor
  · rfl
  · intro h
    have := List.rel_of_pairwise_cons h (List.mem_singleton.mpr rfl)
    simp [strcmpLt] at this

/-- C8: every queue operation, handed a NULL ring handle, performs no
mutation and returns its absence value (`queue.c` lines 248-249,
264-268 via the shared guard shape, 286-287, 301-302, 316-317, 330-331,
348-349, 371-372, 385-386, 472-473, 495-496). -/
theorem null_handle_noop (x : α) (sp : Option (List ℕ)) (bufsize : ℕ)
    (val : α → CStr) :
    q_insert_head (none : Option (List α)) x = (false, none) ∧
    q_insert_tail (none : Option (List α)) x = (false, none) ∧
    q_remove_head none sp bufsize = (none, none, sp) ∧
    q_remove_tail none sp bufsize = (none, none, sp) ∧
    q_size (none : Option (List α)) = 0 ∧
    q_delete_mid (none : Option (List α)) = (false, none) ∧
    q_delete_dup val none = (false, none) ∧
    q_ascend val none = (0, none) ∧
    q_descend val none = (0, none) ∧
    q_swap (none : Option (List α)) = none ∧
    q_reverseSeq (none : Option (List α)) = none :=
  ⟨rfl, rfl, rfl, rfl, rfl, rfl, rfl, rfl, rfl, rfl, rfl⟩

theorem mergeTwoF_nil_left (val : α → CStr) : ∀ (f : ℕ) (r : List α),
    mergeTwoF val f [] r = r
  | 0, _ => rfl
  | _ + 1, [] => rfl
  | _ + 1, _ :: _ => rfl

theorem mergeTwoF_nil_right (val : α → CStr) : ∀ (f : ℕ) (l : List α),
    mergeTwoF val f l [] = l
  | 0, l => List.append_nil l
  | _ + 1, [] => rfl
  | _ + 1, _ :: _ => rfl

/-- Fuel irrelevance for `mergeTwoF`: any fuel covering both chain
lengths computes the same merge. -/
theorem mergeTwoF_fuel (val : α → CStr) : ∀ (f g : ℕ) (l r : List α),
    l.length + r.length ≤ f → l.length + r.length ≤ g →
    mergeTwoF val f l r = mergeTwoF val g l r := by
  intro f
  induction f with
  | zero =>
    intro g l r hf _
    obtain rfl : l = [] := by
      cases l <;> simp_all
    rw [mergeTwoF_nil_left, mergeTwoF_nil_left]
  | succ f ih =>
    intro g l r hf hg
    match l, r with
    | [], r => rw [mergeTwoF_nil_left, mergeTwoF_nil_left]
    | a :: as, [] => rw [mergeTwoF_nil_right, mergeTwoF_nil_right]
    | a :: as, b :: bs =>
      obtain ⟨g, rfl⟩ : ∃ g2, g = g2 + 1 := by
        cases g <;> simp_all <;> omega
      simp only [mergeTwoF]
      split
      · rw [ih g as (b :: bs) (by simp_all; omega) (by simp_all; omega)]
      · rw [ih g (a :: as) bs (by simp_all; omega) (by simp_all; omega)]

/-- Recursion equation for `mergeTwo` on two non-empty chains. -/
theorem mergeTwo_cons (val : α → CStr) (a b : α) (as bs : List α) :
    mergeTwo val (a :: as) (b :: bs) =
      if strcmpLt (val a) (val b) then a :: mergeTwo val as (b :: bs)
      else b :: mergeTwo val (a :: as) bs := by
  show mergeTwoF val _ _ _ = _
  simp only [List.length_cons, mergeTwoF]
  split
  · rw [mergeTwoF_fuel val _ (as.length + (b :: bs).length) as (b :: bs)
      (by simp only [List.length_cons, Nat.add_eq]; omega) (by simp only [List.length_cons, Nat.add_eq]; omega)]
    rfl
  · rw [mergeTwoF_fuel val _ ((a :: as).length + bs.length) (a :: as) bs
      (by simp only [List.length_cons, Nat.add_eq]; omega) (by simp only [List.length_cons, Nat.add_eq]; omega)]
    rfl

/-- C3 counterexample: two nodes with the equal value `"a"` (byte 97),
tagged by position.  `mergeTwo` emits the RIGHT chain's head on the
tie (`strcmp(...) < 0` is false on equal values, `queue.c` lines
410-420), and `q_sort`'s mergesort therefore swaps the two equal
elements. -/
theorem mergeTwo_tie_flips :
    mergeTwo Elem.value [⟨0, [97]⟩] [⟨1, [97]⟩] = [⟨1, [97]⟩, ⟨0, [97]⟩] ∧
    q_mergeSort Elem.value [⟨0, [97]⟩, ⟨1, [97]⟩] = [⟨1, [97]⟩, ⟨0, [97]⟩] := by
  decide

/-- C3 amended: on equal head values `mergeTwo` takes the RIGHT chain's
head first (the left is taken only on strictly smaller value), so the
merge is right-biased on ties and `q_sort` is not stable. -/
theorem mergeTwo_tie_takes_right (val : α → CStr) (a b : α) (as bs : List α)
    (h : val a = val b) :
    mergeTwo val (a :: as) (b :: bs) = b :: mergeTwo val (a :: as) bs := by
  rw [mergeTwo_cons, if_neg]
  rw [h, strcmpLt_irrefl]
  simp

/-- C3 amended witness: concrete tie. -/
theorem mergeTwo_tie_takes_right_witness :
    (Elem.value (⟨0, [97]⟩ : Elem CStr) = Elem.value (⟨1, [97]⟩ : Elem CStr)) ∧
    mergeTwo Elem.value [(⟨0, [97]⟩ : Elem CStr)] [⟨1, [97]⟩] =
      ⟨1, [97]⟩ :: mergeTwo Elem.value [(⟨0, [97]⟩ : Elem CStr)] [] :=
  ⟨rfl, mergeTwo_tie_takes_right Elem.value _ _ _ _ rfl⟩

/-- The buffer after `strncpy(sp, v, bufsize-1); sp[bufsize-1] = 0` on
a buffer of length `bufsize`: at most `bufsize-1` bytes of `v`,
NUL padding, and the forced terminator. -/
theorem copyOut_eq {buf : List ℕ} (v : List ℕ) {B : ℕ} (hB : 1 ≤ B)
    (hlen : buf.length = B) :
    copyOut buf v B = v.take (B - 1) ++ List.replicate (B - 1 - v.length) 0 ++ [0] := by
  set P : List ℕ := v.take (B - 1) ++ List.replicate (B - 1 - v.length) 0 with hP
  have hPlen : P.length = B - 1 := by
    simp only [hP, List.length_append, List.length_take, List.length_replicate]
    omega
  have hS : strncpy buf v (B - 1) = P ++ buf.drop (B - 1) := by
    simp [strncpy, hP]
  have hSlen : (strncpy buf v (B - 1)).length = B := by
    rw [hS]
    simp only [List.length_append, hPlen, List.length_drop, hlen]
    omega
  have hset : (strncpy buf v (B - 1)).set (B - 1) 0 =
      (strncpy buf v (B - 1)).take (B - 1) ++ 0 :: (strncpy buf v (B - 1)).drop B := by
    have hlt : B - 1 < (strncpy buf v (B - 1)).length := by omega
    have := List.set_eq_take_cons_drop 0 hlt
    rwa [show B - 1 + 1 = B by omega] at this
  have htake : (strncpy buf v (B - 1)).take (B - 1) = P := by
    rw [hS, ← hPlen, List.take_left]
  have hdrop : (strncpy buf v (B - 1)).drop B = [] :=
    List.drop_eq_nil_of_le (by omega)
  rw [copyOut, hset, htake, hdrop, List.append_assoc]

/-- C10: on a non-empty queue with `bufsize >= 1` and a buffer of that
size, `q_remove_head` (resp. `q_remove_tail`) copies at most
`bufsize-1` bytes of the removed value into the buffer, NUL-terminates
it at index `bufsize-1`, unlinks exactly the first (resp. last)
element, and returns it; with a NULL buffer nothing is written but the
element is still removed and returned (`queue.c` lines 284-311). -/
theorem remove_head_tail_spec (v : CStr) (rest : List CStr) (buf : List ℕ)
    (B : ℕ) (hB : 1 ≤ B) (hlen : buf.length = B) :
    q_remove_head (some (v :: rest)) (some buf) B =
      (some v, some rest,
        some (v.take (B - 1) ++ List.replicate (B - 1 - v.length) 0 ++ [0])) ∧
    (v.take (B - 1)).length ≤ B - 1 ∧
    (v.take (B - 1) ++ List.replicate (B - 1 - v.length) 0 ++ [0]).getD (B - 1) 1 = 0 ∧
    q_remove_head (some (v :: rest)) none B = (some v, some rest, none) ∧
    q_remove_tail (some (v :: rest)) (some buf) B =
      ((v :: rest).getLast?, some (v :: rest).dropLast,
        some (((v :: rest).getLast (by simp)).take (B - 1) ++
          List.replicate (B - 1 - ((v :: rest).getLast (by simp)).length) 0 ++ [0])) ∧
    q_remove_tail (some (v :: rest)) none B =
      ((v :: rest).getLast?, some (v :: rest).dropLast, none) := by
  have hterm : ∀ w : CStr,
      (w.take (B - 1) ++ List.replicate (B - 1 - w.length) 0 ++ [0]).getD (B - 1) 1 = 0 := by
    intro w
    have hplen : (w.take (B - 1) ++ List.replicate (B - 1 - w.length) 0).length = B - 1 := by
      simp only [List.length_append, List.length_take, List.length_replicate]
      omega
    rw [List.getD_eq_getElem?_getD, List.getElem?_append_right (le_of_eq hplen), hplen]
    simp
  refine ⟨?_, ?_, hterm v, rfl, ?_, ?_⟩
  · simp [q_remove_head, copyOut_eq v hB hlen]
  · simp only [List.length_take]
    omega
  · simp [q_remove_tail, copyOut_eq _ hB hlen, List.getLast?_eq_getLast]
  · simp [q_remove_tail, List.getLast?_eq_getLast]

/-- C10 witness: queue `["ab"]` (bytes `[97,98]`), buffer of size 2. -/
theorem remove_head_tail_spec_witness :
    (1 ≤ 2 ∧ ([9, 9] : List ℕ).length = 2) ∧
    (q_remove_head (some [[97, 98]]) (some [9, 9]) 2 =
      (some [97, 98], some [], some [97, 0]) ∧
     q_remove_tail (some [[97, 98]]) none 2 =
      (some [97, 98], some [], none)) := by
  refine ⟨⟨by decide, by decide⟩, ?_, ?_⟩
  · have h := (remove_head_tail_spec [97, 98] [] [9, 9] 2 (by decide) (by decide)).1
    simpa using h
  · have h := (remove_head_tail_spec [97, 98] [] [9, 9] 2 (by decide) (by decide)).2.2.2.2.2
    simpa using h

/-- C9: `q_ascend` and `q_descend` return the literal `0` on every path
(`queue.c` lines 473, 488, 496, 511), whatever the input ring. -/
theorem ascend_descend_return_zero (val : α → CStr) (q : Option (List α)) :
    (q_ascend val q).1 = 0 ∧ (q_descend val q).1 = 0 := by
  obtain - | l := q
  · exact ⟨rfl, rfl⟩
  · constructor <;> simp only [q_ascend, q_descend] <;> split <;> rfl

/-- After `q_ascend`'s backward pass, no survivor is followed (anywhere
later) by a strictly smaller value. -/
theorem ascendSeq_pairwise (val : α → CStr) (l : List α) :
    (q_ascendSeq val l).Pairwise (fun a b => strcmpLt (val b) (val a) = false) := by
  induction l with
  | nil => exact List.Pairwise.nil
  | cons x l ih =>
    show (ascendStep val x (q_ascendSeq val l)).Pairwise _
    rcases hacc : q_ascendSeq val l with - | ⟨c, t⟩
    · simp [ascendStep]
    · rw [hacc] at ih
      by_cases hcx : strcmpLt (val c) (val x) = true
      · simpa [ascendStep, hcx] using ih
      · have hcx' : strcmpLt (val c) (val x) = false := by
          simpa using hcx
        simp only [ascendStep, hcx', if_false]
        refine List.Pairwise.cons ?_ ih
        intro y hy
        rcases List.mem_cons.mp hy with rfl | hy
        · exact hcx'
        · exact strcmpLt_neg_trans (List.rel_of_pairwise_cons ih hy) hcx'

/-- After `q_descend`'s backward pass, no survivor is followed by a
strictly greater value. -/
theorem descendSeq_pairwise (val : α → CStr) (l : List α) :
    (q_descendSeq val l).Pairwise (fun a b => strcmpLt (val a) (val b) = false) := by
  induction l with
  | nil => exact List.Pairwise.nil
  | cons x l ih =>
    show (descendStep val x (q_descendSeq val l)).Pairwise _
    rcases hacc : q_descendSeq val l with - | ⟨c, t⟩
    · simp [descendStep]
    · rw [hacc] at ih
      by_cases hxc : strcmpLt (val x) (val c) = true
      · simpa [descendStep, hxc] using ih
      · have hxc' : strcmpLt (val x) (val c) = false := by
          simpa using hxc
        simp only [descendStep, hxc', if_false]
        refine List.Pairwise.cons ?_ ih
        intro y hy
        rcases List.mem_cons.mp hy with rfl | hy
        · exact hxc'
        · exact strcmpLt_neg_trans hxc' (List.rel_of_pairwise_cons ih hy)

/-- `q_ascend` only deletes nodes: the survivors are a sublist. -/
theorem ascendSeq_sublist (val : α → CStr) (l : List α) :
    (q_ascendSeq val l).Sublist l := by
  induction l with
  | nil => exact List.Sublist.refl []
  | cons x l ih =>
    show (ascendStep val x (q_ascendSeq val l)).Sublist (x :: l)
    rcases hacc : q_ascendSeq val l with - | ⟨c, t⟩
    · simpa [ascendStep] using List.nil_sublist l
    · rw [hacc] at ih
      by_cases hcx : strcmpLt (val c) (val x) = true
      · simpa [ascendStep, hcx] using ih.cons x
      · simp only [ascendStep, hcx, if_false]
        exact ih.cons₂ x

/-- `q_descend` only deletes nodes: the survivors are a sublist. -/
theorem descendSeq_sublist (val : α → CStr) (l : List α) :
    (q_descendSeq val l).Sublist l := by
  induction l with
  | nil => exact List.Sublist.refl []
  | cons x l ih =>
    show (descendStep val x (q_descendSeq val l)).Sublist (x :: l)
    rcases hacc : q_descendSeq val l with - | ⟨c, t⟩
    · simpa [descendStep] using List.nil_sublist l
    · rw [hacc] at ih
      by_cases hxc : strcmpLt (val x) (val c) = true
      · simpa [descendStep, hxc] using ih.cons x
      · simp only [descendStep, hxc, if_false]
        exact ih.cons₂ x

/-- C6: after `q_ascend` no remaining node has a strictly smaller value
(by `strcmp`) later in the ring, after `q_descend` none has a strictly
greater value later, survivors keep their relative order, and on the
ring `"5","3","4","2"` (bytes 53,51,52,50) `q_ascend` leaves exactly
`"2"` (`queue.c` lines 470-512). -/
theorem ascend_descend_monotone :
    (∀ l : List CStr,
      (q_ascendSeq id l).Pairwise (fun a b => strcmpLt b a = false)) ∧
    (∀ l : List CStr,
      (q_descendSeq id l).Pairwise (fun a b => strcmpLt a b = false)) ∧
    (∀ l : List CStr, (q_ascendSeq id l).Sublist l) ∧
    (∀ l : List CStr, (q_descendSeq id l).Sublist l) ∧
    q_ascendSeq id [[53], [51], [52], [50]] = [[50]] :=
  ⟨fun l => ascendSeq_pairwise id l, fun l => descendSeq_pairwise id l,
    fun l => ascendSeq_sublist id l, fun l => descendSeq_sublist id l, by decide⟩

/-- With `is_dup` set, the walk deletes the whole leading equal-valued
run (the run head was already deleted) and continues with the flag
clear. -/
theorem deleteDupGo_true (val : α → CStr) :
    ∀ (rest : List α) (y : α),
    deleteDupGo val true (y :: rest) =
      deleteDupGo val false ((y :: rest).dropWhile (fun z => decide (val z = val y))) := by
  intro rest
  induction rest with
  | nil =>
    intro y
    simp [deleteDupGo, List.dropWhile]
  | cons z r ih =>
    intro y
    by_cases hyz : val y = val z
    · have h1 : deleteDupGo val true (y :: z :: r) = deleteDupGo val true (z :: r) := by
        simp [deleteDupGo, hyz]
      have h2 : (y :: z :: r).dropWhile (fun w => decide (val w = val y)) =
          (z :: r).dropWhile (fun w => decide (val w = val z)) := by
        rw [List.dropWhile_cons_of_pos (by simp)]
        congr 1
        funext w
        rw [hyz]
      rw [h1, ih z, h2]
    · have h1 : deleteDupGo val true (y :: z :: r) = deleteDupGo val false (z :: r) := by
        simp [deleteDupGo, hyz]
      have h2 : (y :: z :: r).dropWhile (fun w => decide (val w = val y)) = z :: r := by
        rw [List.dropWhile_cons_of_pos (by simp)]
        exact List.dropWhile_cons_of_neg (by simpa using fun h => hyz h.symm)
      rw [h1, h2]

/-- In a sorted list whose first two values differ, the head value does
not recur (`strcmpLt` is antisymmetric). -/
theorem sorted_head_notin {x y : CStr} {rest : List CStr}
    (hs : (x :: y :: rest).Pairwise (fun a b => strcmpLt b a = false))
    (hxy : x ≠ y) : x ∉ y :: rest := by
  intro hmem
  rcases List.mem_cons.mp hmem with rfl | hmem
  · exact hxy rfl
  · have h1 : strcmpLt y x = false :=
      List.rel_of_pairwise_cons hs (List.mem_cons_self y rest)
    have h2 : strcmpLt x y = false :=
      List.rel_of_pairwise_cons (List.pairwise_cons.mp hs).2 hmem
    rcases strcmpLt_total x y with h | h | h
    · simp [h] at h2
    · simp [h] at h1
    · exact hxy h

/-- In a sorted list headed by `y`, everything after the leading run of
`y`s differs from `y`. -/
theorem dropWhile_run_ne {y : CStr} {rest : List CStr}
    (hs : (y :: rest).Pairwise (fun a b => strcmpLt b a = false)) :
    ∀ z ∈ (y :: rest).dropWhile (fun w => decide (w = y)), z ≠ y := by
  rcases hdw : (y :: rest).dropWhile (fun w => decide (w = y)) with - | ⟨h0, s'⟩
  · intro z hz
    simp at hz
  · have hsub : (h0 :: s').Sublist (y :: rest) := by
      rw [← hdw]
      exact List.dropWhile_sublist _
    have hne : (y :: rest).dropWhile (fun w => decide (w = y)) ≠ [] := by
      rw [hdw]
      exact List.cons_ne_nil h0 s'
    have hh0y : h0 ≠ y := by
      have h1 := List.head_dropWhile_not (fun w => decide (w = y)) (y :: rest) hne
      have h2 : ((y :: rest).dropWhile (fun w => decide (w = y))).head hne = h0 := by
        simp only [hdw]
        rfl
      rw [h2] at h1
      simpa using h1
    intro z hz hzy
    subst hzy
    rcases List.mem_cons.mp hz with rfl | hzt
    · exact hh0y rfl
    · have hh0mem : h0 ∈ z :: rest := hsub.mem (List.mem_cons_self h0 s')
      have hh0rest : h0 ∈ rest := by
        rcases List.mem_cons.mp hh0mem with h | h
        · exact absurd h hh0y
        · exact h
      have h1 : strcmpLt h0 z = false := List.rel_of_pairwise_cons hs hh0rest
      have h2 : strcmpLt z h0 = false :=
        List.rel_of_pairwise_cons (hs.sublist hsub) hzt
      rcases strcmpLt_total h0 z with h | h | h
      · simp [h] at h1
      · simp [h] at h2
      · exact hh0y h

/-- On a value-sorted list the `q_delete_dup` pass keeps exactly the
values occurring once (bounded induction on the length). -/
theorem deleteDup_filter_aux : ∀ (n : ℕ) (l : List CStr), l.length ≤ n →
    l.Pairwise (fun a b => strcmpLt b a = false) →
    deleteDupGo id false l = l.filter (fun x => decide (l.count x = 1)) := by
  intro n
  induction n with
  | zero =>
    intro l hl _
    obtain rfl : l = [] := List.length_eq_zero.mp (Nat.le_zero.mp hl)
    rfl
  | succ n ih =>
    intro l hl hs
    match l with
    | [] => rfl
    | [x] => simp [deleteDupGo, List.count_cons]
    | x :: y :: rest =>
      by_cases hxy : x = y
      · subst hxy
        have hstep : deleteDupGo id false (x :: x :: rest) =
            deleteDupGo id true (x :: rest) := by
          simp [deleteDupGo]
        rw [hstep, deleteDupGo_true id rest x]
        simp only [id_eq]
        have htail : (x :: rest).Pairwise (fun a b => strcmpLt b a = false) :=
          (List.pairwise_cons.mp hs).2
        have htail2 : rest.Pairwise (fun a b => strcmpLt b a = false) :=
          (List.pairwise_cons.mp htail).2
        have hdrop : (x :: rest).dropWhile (fun z => decide (z = x)) =
            rest.dropWhile (fun z => decide (z = x)) :=
          List.dropWhile_cons_of_pos (by simp)
        rw [hdrop]
        have hslen : (rest.dropWhile (fun z => decide (z = x))).length ≤ n := by
          have h1 : (rest.dropWhile (fun z => decide (z = x))).length ≤ rest.length :=
            (List.dropWhile_sublist _).length_le
          simp only [List.length_cons] at hl
          omega
        have hssorted : (rest.dropWhile (fun z => decide (z = x))).Pairwise
            (fun a b => strcmpLt b a = false) :=
          htail2.sublist (List.dropWhile_sublist _)
        have hne : ∀ z ∈ rest.dropWhile (fun z => decide (z = x)), z ≠ x := by
          intro z hz
          refine dropWhile_run_ne htail z ?_
          rw [hdrop]
          exact hz
        have ht : ∀ z ∈ rest.takeWhile (fun z => decide (z = x)), z = x := by
          intro z hz
          simpa using List.mem_takeWhile_imp hz
        rw [ih _ hslen hssorted]
        have hcx : (decide ((x :: x :: rest).count x = 1)) = false := by
          simp [List.count_cons]
        obtain ⟨P, hP⟩ : ∃ P, (fun z : CStr => decide ((x :: x :: rest).count z = 1)) = P :=
          ⟨_, rfl⟩
        have hPx : P x = false := hP ▸ hcx
        have hPt : ∀ z ∈ rest.takeWhile (fun z => decide (z = x)), P z = false := by
          intro z hz
          rw [ht z hz]
          exact hPx
        have hPs : ∀ z ∈ rest.dropWhile (fun z => decide (z = x)),
            P z = decide ((rest.dropWhile (fun z => decide (z = x))).count z = 1) := by
          intro z hz
          have hzx : z ≠ x := hne z hz
          have hzt : z ∉ rest.takeWhile (fun z => decide (z = x)) :=
            fun hmem => hzx (ht z hmem)
          have hsplit : List.count z rest =
              List.count z (rest.takeWhile (fun z => decide (z = x)) ++
                rest.dropWhile (fun z => decide (z = x))) := by
            rw [List.takeWhile_append_dropWhile]
          have hc : (x :: x :: rest).count z =
              (rest.dropWhile (fun z => decide (z = x))).count z := by
            rw [List.count_cons_of_ne hzx, List.count_cons_of_ne hzx, hsplit,
              List.count_append, List.count_eq_zero.mpr hzt]
            omega
          rw [← hP]
          simp only [hc]
        rw [hP]
        have hfstep : (x :: x :: rest).filter P = rest.filter P := by
          rw [List.filter_cons_of_neg (by simp [hPx]), List.filter_cons_of_neg (by simp [hPx])]
        have hfsplit : rest.filter P =
            (rest.takeWhile (fun z => decide (z = x)) ++
              rest.dropWhile (fun z => decide (z = x))).filter P := by
          rw [List.takeWhile_append_dropWhile]
        have hft : (rest.takeWhile (fun z => decide (z = x))).filter P = [] :=
          List.filter_eq_nil_iff.mpr (fun z hz => by simp [hPt z hz])
        rw [hfstep, hfsplit, List.filter_append, hft, List.nil_append,
          List.filter_congr hPs]
      · have hstep : deleteDupGo id false (x :: y :: rest) =
            x :: deleteDupGo id false (y :: rest) := by
          simp [deleteDupGo, hxy]
        have htail : (y :: rest).Pairwise (fun a b => strcmpLt b a = false) :=
          (List.pairwise_cons.mp hs).2
        have hlen : (y :: rest).length ≤ n := by
          simp only [List.length_cons] at hl ⊢
          omega
        rw [hstep, ih (y :: rest) hlen htail]
        have hnotin : x ∉ y :: rest := sorted_head_notin hs hxy
        have hcx : decide ((x :: y :: rest).count x = 1) = true := by
          simp [List.count_cons, List.count_eq_zero.mpr hnotin]
        have hfilt : ∀ z ∈ y :: rest,
            (decide ((x :: y :: rest).count z = 1)) =
              (decide ((y :: rest).count z = 1)) := by
          intro z hz
          have hzx : z ≠ x := fun h => hnotin (h ▸ hz)
          rw [List.count_cons_of_ne hzx]
        rw [@List.filter_cons_of_pos CStr
          (fun z : CStr => decide (List.count z (x :: y :: rest) = 1))
          x (y :: rest) hcx,
          List.filter_congr hfilt]

/-- C7: on a value-sorted ring, `q_delete_dup` removes every member of
each maximal run of two or more equal-valued nodes (including the last
member) and keeps every value occurring exactly once; on
`"a","a","b","b","c"` it leaves exactly `"c"` (`queue.c` lines
346-366). -/
theorem delete_dup_removes_runs :
    (∀ l : List CStr, l.Pairwise (fun a b => strcmpLt b a = false) →
      q_delete_dupSeq id l = l.filter (fun x => decide (l.count x = 1))) ∧
    q_delete_dupSeq id [[97], [97], [98], [98], [99]] = [[99]] :=
  ⟨fun l hs => deleteDup_filter_aux l.length l le_rfl hs, by decide⟩

/-- C7 witness: the sorted ring `"a","a","b"`. -/
theorem delete_dup_removes_runs_witness :
    ([[97], [97], [98]] : List CStr).Pairwise (fun a b => strcmpLt b a = false) ∧
    q_delete_dupSeq id [[97], [97], [98]] =
      [[97], [97], [98]].filter (fun x => decide ([[97], [97], [98]].count x = 1)) :=
  ⟨by decide, delete_dup_removes_runs.1 [[97], [97], [98]] (by decide)⟩

theorem mergeF_nil_left (cmp : α → α → Int) : ∀ (f : ℕ) (r : List α),
    mergeF cmp f [] r = r
  | 0, _ => rfl
  | _ + 1, [] => rfl
  | _ + 1, _ :: _ => rfl

theorem mergeF_nil_right (cmp : α → α → Int) : ∀ (f : ℕ) (l : List α),
    mergeF cmp f l [] = l
  | 0, l => List.append_nil l
  | _ + 1, [] => rfl
  | _ + 1, _ :: _ => rfl

/-- Fuel irrelevance for `mergeF`. -/
theorem mergeF_fuel (cmp : α → α → Int) : ∀ (f g : ℕ) (l r : List α),
    l.length + r.length ≤ f → l.length + r.length ≤ g →
    mergeF cmp f l r = mergeF cmp g l r := by
  intro f
  induction f with
  | zero =>
    intro g l r hf _
    obtain rfl : l = [] := by
      cases l <;> simp_all
    rw [mergeF_nil_left, mergeF_nil_left]
  | succ f ih =>
    intro g l r hf hg
    match l, r with
    | [], r => rw [mergeF_nil_left, mergeF_nil_left]
    | a :: as, [] => rw [mergeF_nil_right, mergeF_nil_right]
    | a :: as, b :: bs =>
      obtain ⟨g, rfl⟩ : ∃ g2, g = g2 + 1 := by
        cases g <;> simp_all <;> omega
      simp only [mergeF]
      split
      · rw [ih g as (b :: bs) (by simp only [List.length_cons, Nat.add_eq] at hf ⊢; omega)
          (by simp only [List.length_cons, Nat.add_eq] at hg ⊢; omega)]
      · rw [ih g (a :: as) bs (by simp only [List.length_cons, Nat.add_eq] at hf ⊢; omega)
          (by simp only [List.length_cons, Nat.add_eq] at hg ⊢; omega)]

theorem lmerge_nil_left (cmp : α → α → Int) (r : List α) : lmerge cmp [] r = r :=
  mergeF_nil_left cmp _ r

theorem lmerge_nil_right (cmp : α → α → Int) (l : List α) : lmerge cmp l [] = l :=
  mergeF_nil_right cmp _ l

/-- Recursion equation for `lmerge` on two non-empty chains: take `a`
exactly when `cmp a b <= 0` (`list_sort.c` lines 19-38). -/
theorem lmerge_cons (cmp : α → α → Int) (a b : α) (as bs : List α) :
    lmerge cmp (a :: as) (b :: bs) =
      if cmp a b ≤ 0 then a :: lmerge cmp as (b :: bs)
      else b :: lmerge cmp (a :: as) bs := by
  show mergeF cmp _ _ _ = _
  simp only [List.length_cons, mergeF]
  split
  · rw [mergeF_fuel cmp _ (as.length + (b :: bs).length) as (b :: bs)
      (by simp only [List.length_cons, Nat.add_eq]; omega)
      (by simp only [List.length_cons, Nat.add_eq]; omega)]
    rfl
  · rw [mergeF_fuel cmp _ ((a :: as).length + bs.length) (a :: as) bs
      (by simp only [List.length_cons, Nat.add_eq]; omega)
      (by simp only [List.length_cons, Nat.add_eq]; omega)]
    rfl

/-- The merge emits every element of both chains exactly once. -/
theorem lmerge_perm (cmp : α → α → Int) : ∀ (n : ℕ) (a b : List α),
    a.length + b.length ≤ n → (lmerge cmp a b).Perm (a ++ b) := by
  intro n
  induction n with
  | zero =>
    intro a b h
    obtain rfl : a = [] := by cases a <;> simp_all
    obtain rfl : b = [] := by cases b <;> simp_all
    rw [lmerge_nil_left]
    exact List.Perm.refl _
  | succ n ih =>
    intro a b h
    match a, b with
    | [], b =>
      rw [lmerge_nil_left, List.nil_append]
    | x :: xs, [] =>
      rw [lmerge_nil_right, List.append_nil]
    | x :: xs, y :: ys =>
      rw [lmerge_cons]
      simp only [List.length_cons] at h
      split
      · exact (ih xs (y :: ys) (by simp only [List.length_cons]; omega)).cons x
      · refine ((ih (x :: xs) ys (by simp only [List.length_cons]; omega)).cons y).trans ?_
        exact (@List.perm_middle _ y (x :: xs) ys).symm

theorem lmerge_length (cmp : α → α → Int) (a b : List α) :
    (lmerge cmp a b).length = a.length + b.length := by
  rw [(lmerge_perm cmp (a.length + b.length) a b le_rfl).length_eq, List.length_append]

theorem lmerge_mem (cmp : α → α → Int) {x : α} {a b : List α} :
    x ∈ lmerge cmp a b ↔ x ∈ a ∨ x ∈ b := by
  rw [(lmerge_perm cmp (a.length + b.length) a b le_rfl).mem_iff, List.mem_append]

/-- A merge of two sorted chains is sorted, for any comparator that is
total and transitive in the `<= 0` sense of the contract. -/
theorem lmerge_sorted (cmp : α → α → Int)
    (htot : ∀ x y, cmp x y ≤ 0 ∨ cmp y x ≤ 0)
    (htrans : ∀ x y z, cmp x y ≤ 0 → cmp y z ≤ 0 → cmp x z ≤ 0) :
    ∀ (n : ℕ) (a b : List α), a.length + b.length ≤ n →
    a.Pairwise (fun x y => cmp x y ≤ 0) → b.Pairwise (fun x y => cmp x y ≤ 0) →
    (lmerge cmp a b).Pairwise (fun x y => cmp x y ≤ 0) := by
  intro n
  induction n with
  | zero =>
    intro a b h _ _
    obtain rfl : a = [] := by cases a <;> simp_all
    obtain rfl : b = [] := by cases b <;> simp_all
    rw [lmerge_nil_left]
    exact List.Pairwise.nil
  | succ n ih =>
    intro a b h ha hb
    match a, b with
    | [], b =>
      rw [lmerge_nil_left]
      exact hb
    | x :: xs, [] =>
      rw [lmerge_nil_right]
      exact ha
    | x :: xs, y :: ys =>
      rw [lmerge_cons]
      simp only [List.length_cons] at h
      obtain ⟨hx, hxs⟩ := List.pairwise_cons.mp ha
      obtain ⟨hy, hys⟩ := List.pairwise_cons.mp hb
      split
      case isTrue hxy =>
        refine List.Pairwise.cons ?_ (ih xs (y :: ys)
          (by simp only [List.length_cons]; omega) hxs hb)
        intro z hz
        rcases lmerge_mem cmp |>.mp hz with hz | hz
        · exact hx z hz
        · rcases List.mem_cons.mp hz with rfl | hz
          · exact hxy
          · exact htrans x y z hxy (hy z hz)
      case isFalse hxy =>
        have hyx : cmp y x ≤ 0 := (htot x y).resolve_left hxy
        refine List.Pairwise.cons ?_ (ih (x :: xs) ys
          (by simp only [List.length_cons]; omega) ha hys)
        intro z hz
        rcases lmerge_mem cmp |>.mp hz with hz | hz
        · rcases List.mem_cons.mp hz with rfl | hz
          · exact hyx
          · exact htrans y x z hyx (hx z hz)
        · exact hy z hz

/-- Left-biased stable merge keeps each key class contiguous with the
left chain's members first: filtering a merge of sorted chains by a
key class splits as the two filtered inputs concatenated. -/
theorem lmerge_filter (cmp : α → α → Int)
    (htot : ∀ x y, cmp x y ≤ 0 ∨ cmp y x ≤ 0)
    (htrans : ∀ x y z, cmp x y ≤ 0 → cmp y z ≤ 0 → cmp x z ≤ 0) (k : α) :
    ∀ (n : ℕ) (a b : List α), a.length + b.length ≤ n →
    a.Pairwise (fun x y => cmp x y ≤ 0) → b.Pairwise (fun x y => cmp x y ≤ 0) →
    (lmerge cmp a b).filter (keqB cmp k) =
      a.filter (keqB cmp k) ++ b.filter (keqB cmp k) := by
  intro n
  induction n with
  | zero =>
    intro a b h _ _
    obtain rfl : a = [] := by cases a <;> simp_all
    obtain rfl : b = [] := by cases b <;> simp_all
    rw [lmerge_nil_left]
    rfl
  | succ n ih =>
    intro a b h ha hb
    match a, b with
    | [], b =>
      rw [lmerge_nil_left, List.filter_nil, List.nil_append]
    | x :: xs, [] =>
      rw [lmerge_nil_right, List.filter_nil, List.append_nil]
    | x :: xs, y :: ys =>
      rw [lmerge_cons]
      simp only [List.length_cons] at h
      obtain ⟨hx, hxs⟩ := List.pairwise_cons.mp ha
      obtain ⟨hy, hys⟩ := List.pairwise_cons.mp hb
      split
      case isTrue hxy =>
        have hrec := ih xs (y :: ys) (by simp only [List.length_cons]; omega) hxs hb
        by_cases hkx : keqB cmp k x = true
        · rw [List.filter_cons_of_pos hkx, List.filter_cons_of_pos hkx, hrec,
            List.cons_append]
        · rw [List.filter_cons_of_neg hkx, List.filter_cons_of_neg hkx, hrec]
      case isFalse hxy =>
        have hrec := ih (x :: xs) ys (by simp only [List.length_cons]; omega) ha hys
        by_cases hky : keqB cmp k y = true
        · have hxxs : (x :: xs).filter (keqB cmp k) = [] := by
            rw [List.filter_eq_nil_iff]
            intro z hz hkz
            have hky2 : cmp k y ≤ 0 := by
              simp only [keqB, Bool.and_eq_true, decide_eq_true_eq] at hky
              exact hky.2
            have hzk : cmp z k ≤ 0 := by
              simp only [keqB, Bool.and_eq_true, decide_eq_true_eq] at hkz
              exact hkz.1
            have hxz : cmp x z ≤ 0 := by
              rcases List.mem_cons.mp hz with rfl | hz
              · exact (htot z z).elim id id
              · exact hx z hz
            exact hxy (htrans x k y (htrans x z k hxz hzk) hky2)
          rw [List.filter_cons_of_pos hky, hrec, hxxs]
          simp only [List.nil_append]
          rw [List.filter_cons_of_pos hky]
        · rw [List.filter_cons_of_neg hky, List.filter_cons_of_neg hky, hrec]

theorem revflat_cons (r : List α) (rs : List (List α)) :
    ((r :: rs).reverse).flatten = rs.reverse.flatten ++ r := by
  rw [List.reverse_cons, List.flatten_append]
  simp

/-- One pending-stack walk (the merge step of an iteration) preserves:
sortedness of every run, each key class of the back-to-front
concatenation, and the multiset of elements. -/
theorem lsWalk_inv (cmp : α → α → Int)
    (htot : ∀ x y, cmp x y ≤ 0 ∨ cmp y x ≤ 0)
    (htrans : ∀ x y z, cmp x y ≤ 0 → cmp y z ≤ 0 → cmp x z ≤ 0) :
    ∀ (p : List (List α)) (bits : ℕ),
    (∀ r ∈ p, r.Pairwise (fun x y => cmp x y ≤ 0)) →
    (∀ r ∈ lsWalk cmp bits p, r.Pairwise (fun x y => cmp x y ≤ 0)) ∧
    (∀ k, ((lsWalk cmp bits p).reverse.flatten).filter (keqB cmp k) =
      (p.reverse.flatten).filter (keqB cmp k)) ∧
    ((lsWalk cmp bits p).reverse.flatten).Perm (p.reverse.flatten) := by
  intro p
  induction p with
  | nil =>
    intro bits _
    exact ⟨by simp [lsWalk], fun k => rfl, List.Perm.refl _⟩
  | cons r rest ih =>
    intro bits hp
    have hr : r.Pairwise (fun x y => cmp x y ≤ 0) := hp r (List.mem_cons_self r rest)
    have hrest : ∀ r' ∈ rest, r'.Pairwise (fun x y => cmp x y ≤ 0) :=
      fun r' h => hp r' (List.mem_cons_of_mem r h)
    by_cases hodd : bits % 2 = 1
    · obtain ⟨ihs, ihf, ihp⟩ := ih (bits / 2) hrest
      have hw : lsWalk cmp bits (r :: rest) = r :: lsWalk cmp (bits / 2) rest := by
        simp [lsWalk, hodd]
      rw [hw]
      refine ⟨?_, ?_, ?_⟩
      · intro r' hr'
        rcases List.mem_cons.mp hr' with rfl | hr'
        · exact hr
        · exact ihs r' hr'
      · intro k
        rw [revflat_cons, revflat_cons, List.filter_append, List.filter_append, ihf k]
      · rw [revflat_cons, revflat_cons]
        exact ihp.append_right r
    · by_cases hz : bits = 0
      · subst hz
        refine ⟨hp, fun k => ?_, ?_⟩
        · rw [show lsWalk cmp 0 (r :: rest) = r :: rest by simp [lsWalk]]
        · rw [show lsWalk cmp 0 (r :: rest) = r :: rest by simp [lsWalk]]
      · match rest with
        | [] =>
          have hw : lsWalk cmp bits [r] = [r] := by
            simp [lsWalk, hodd, hz]
          rw [hw]
          exact ⟨hp, fun k => rfl, List.Perm.refl _⟩
        | b :: rest2 =>
          have hw : lsWalk cmp bits (r :: b :: rest2) = lmerge cmp b r :: rest2 := by
            simp [lsWalk, hodd, hz]
          rw [hw]
          have hb : b.Pairwise (fun x y => cmp x y ≤ 0) :=
            hrest b (List.mem_cons_self b rest2)
          have hrest2 : ∀ r' ∈ rest2, r'.Pairwise (fun x y => cmp x y ≤ 0) :=
            fun r' h => hrest r' (List.mem_cons_of_mem b h)
          refine ⟨?_, ?_, ?_⟩
          · intro r' hr'
            rcases List.mem_cons.mp hr' with rfl | hr'
            · exact lmerge_sorted cmp htot htrans _ b r le_rfl hb hr
            · exact hrest2 r' hr'
          · intro k
            rw [revflat_cons, revflat_cons, revflat_cons, List.filter_append,
              List.filter_append, List.filter_append,
              lmerge_filter cmp htot htrans k _ b r le_rfl hb hr, List.append_assoc]
          · rw [revflat_cons, revflat_cons, revflat_cons, List.append_assoc]
            exact (lmerge_perm cmp _ b r le_rfl).append_left _

/-- The main-loop invariant of `list_sort`: runs stay sorted, and the
back-to-front concatenation of the pending stack tracks the consumed
prefix of the input, key class by key class and as a multiset; the
counter counts consumed elements. -/
theorem lsLoop_inv (cmp : α → α → Int)
    (htot : ∀ x y, cmp x y ≤ 0 ∨ cmp y x ≤ 0)
    (htrans : ∀ x y z, cmp x y ≤ 0 → cmp y z ≤ 0 → cmp x z ≤ 0) :
    ∀ (l : List α) (p : List (List α)) (c : ℕ),
    (∀ r ∈ p, r.Pairwise (fun x y => cmp x y ≤ 0)) →
    (∀ r ∈ (l.foldl (lsStep cmp) (p, c)).1, r.Pairwise (fun x y => cmp x y ≤ 0)) ∧
    (∀ k, (((l.foldl (lsStep cmp) (p, c)).1.reverse.flatten).filter (keqB cmp k)) =
      ((p.reverse.flatten ++ l).filter (keqB cmp k))) ∧
    ((l.foldl (lsStep cmp) (p, c)).1.reverse.flatten).Perm (p.reverse.flatten ++ l) ∧
    (l.foldl (lsStep cmp) (p, c)).2 = c + l.length := by
  intro l
  induction l with
  | nil =>
    intro p c hp
    exact ⟨hp, fun k => by simp, by simp, by simp⟩
  | cons x l ih =>
    intro p c hp
    obtain ⟨hws, hwf, hwp⟩ := lsWalk_inv cmp htot htrans p c hp
    have hstep : lsStep cmp (p, c) x = ([x] :: lsWalk cmp c p, c + 1) := rfl
    have hsorted : ∀ r ∈ [x] :: lsWalk cmp c p,
        r.Pairwise (fun x y => cmp x y ≤ 0) := by
      intro r hr
      rcases List.mem_cons.mp hr with rfl | hr
      · exact List.pairwise_singleton _ x
      · exact hws r hr
    obtain ⟨ihs, ihf, ihp, ihc⟩ := ih ([x] :: lsWalk cmp c p) (c + 1) hsorted
    rw [List.foldl_cons, hstep]
    refine ⟨ihs, ?_, ?_, ?_⟩
    · intro k
      rw [ihf k, revflat_cons]
      have hsplit : (p.reverse.flatten ++ (x :: l)).filter (keqB cmp k) =
          (p.reverse.flatten.filter (keqB cmp k) ++ [x].filter (keqB cmp k))
            ++ l.filter (keqB cmp k) := by
        rw [← List.filter_append, ← List.filter_append, List.append_assoc]
        rfl
      rw [hsplit, List.filter_append, List.filter_append, hwf k]
    · refine ihp.trans ?_
      rw [revflat_cons]
      have h2 : ((lsWalk cmp c p).reverse.flatten ++ [x] ++ l).Perm
          ((p.reverse.flatten ++ [x]) ++ l) := (hwp.append_right [x]).append_right l
      refine h2.trans ?_
      rw [List.append_assoc]
      exact List.Perm.refl _
    · rw [ihc]
      simp only [List.length_cons]
      omega

/-- The termination phase folds each older pending run into the
accumulated chain (older run always the left merge argument),
preserving key classes and the multiset, and yielding a sorted chain. -/
theorem lsCollapse_inv (cmp : α → α → Int)
    (htot : ∀ x y, cmp x y ≤ 0 ∨ cmp y x ≤ 0)
    (htrans : ∀ x y z, cmp x y ≤ 0 → cmp y z ≤ 0 → cmp x z ≤ 0) :
    ∀ (rs : List (List α)) (acc : List α),
    acc.Pairwise (fun x y => cmp x y ≤ 0) →
    (∀ r ∈ rs, r.Pairwise (fun x y => cmp x y ≤ 0)) →
    (rs.foldl (fun acc p => lmerge cmp p acc) acc).Pairwise
      (fun x y => cmp x y ≤ 0) ∧
    (∀ k, (rs.foldl (fun acc p => lmerge cmp p acc) acc).filter (keqB cmp k) =
      (rs.reverse.flatten ++ acc).filter (keqB cmp k)) ∧
    (rs.foldl (fun acc p => lmerge cmp p acc) acc).Perm
      (rs.reverse.flatten ++ acc) := by
  intro rs
  induction rs with
  | nil =>
    intro acc hacc _
    exact ⟨hacc, fun k => by simp, by simp⟩
  | cons p rs ih =>
    intro acc hacc hrs
    have hp : p.Pairwise (fun x y => cmp x y ≤ 0) := hrs p (List.mem_cons_self p rs)
    have hrs' : ∀ r ∈ rs, r.Pairwise (fun x y => cmp x y ≤ 0) :=
      fun r h => hrs r (List.mem_cons_of_mem p h)
    have hmacc : (lmerge cmp p acc).Pairwise (fun x y => cmp x y ≤ 0) :=
      lmerge_sorted cmp htot htrans _ p acc le_rfl hp hacc
    obtain ⟨ihs, ihf, ihp⟩ := ih (lmerge cmp p acc) hmacc hrs'
    rw [List.foldl_cons]
    refine ⟨ihs, ?_, ?_⟩
    · intro k
      rw [ihf k, revflat_cons]
      rw [List.filter_append, List.filter_append,
        lmerge_filter cmp htot htrans k _ p acc le_rfl hp hacc,
        List.filter_append, List.append_assoc]
    · refine ihp.trans ?_
      rw [revflat_cons, List.append_assoc]
      exact (lmerge_perm cmp _ p acc le_rfl).append_left _

/-- The pending stack is non-empty once at least one element has been
consumed. -/
theorem lsLoop_pending_ne (cmp : α → α → Int) :
    ∀ (l : List α) (p : List (List α)) (c : ℕ), l ≠ [] →
    (l.foldl (lsStep cmp) (p, c)).1 ≠ [] := by
  intro l
  induction l with
  | nil =>
    intro p c h
    exact absurd rfl h
  | cons x l ih =>
    intro p c _
    rw [List.foldl_cons]
    by_cases hl : l = []
    · subst hl
      simp [lsStep]
    · exact ih _ _ hl

/-- C4: `list_sort`'s merge emits `a` (the older/left element) whenever
`cmp(priv, a, b) <= 0` (`list_sort.c` lines 19-28), and consequently,
for every comparator that is total and transitive in the `<= 0` sense
of the contract and every input, `list_sort` permutes the input and
keeps every key class (elements comparing equal) in its original
relative order: the sort is stable. -/
theorem list_sort_stable (cmp : α → α → Int)
    (htot : ∀ x y, cmp x y ≤ 0 ∨ cmp y x ≤ 0)
    (htrans : ∀ x y z, cmp x y ≤ 0 → cmp y z ≤ 0 → cmp x z ≤ 0) (l : List α) :
    (∀ (a b : α) (as bs : List α), cmp a b ≤ 0 →
      lmerge cmp (a :: as) (b :: bs) = a :: lmerge cmp as (b :: bs)) ∧
    (list_sortSeq cmp l).Perm l ∧
    ∀ k, (list_sortSeq cmp l).filter (keqB cmp k) = l.filter (keqB cmp k) := by
  refine ⟨fun a b as bs h => by rw [lmerge_cons, if_pos h], ?_⟩
  by_cases hlen : l.length ≤ 1
  · rw [list_sortSeq, if_pos hlen]
    exact ⟨List.Perm.refl l, fun k => rfl⟩
  · have hlne : l ≠ [] := by
      intro h
      subst h
      simp at hlen
    obtain ⟨hs, hf, hperm, -⟩ := lsLoop_inv cmp htot htrans l [] 0
      (by intro r hr; simp at hr)
    rcases hpend : (l.foldl (lsStep cmp) ([], 0)).1 with - | ⟨r, rs⟩
    · exact absurd hpend (lsLoop_pending_ne cmp l [] 0 hlne)
    · rw [hpend] at hs hf hperm
      have hr : r.Pairwise (fun x y => cmp x y ≤ 0) :=
        hs r (List.mem_cons_self r rs)
      have hrs : ∀ r' ∈ rs, r'.Pairwise (fun x y => cmp x y ≤ 0) :=
        fun r' h => hs r' (List.mem_cons_of_mem r h)
      obtain ⟨hcs, hcf, hcp⟩ := lsCollapse_inv cmp htot htrans rs r hr hrs
      have hshow : list_sortSeq cmp l =
          rs.foldl (fun acc p => lmerge cmp p acc) r := by
        rw [list_sortSeq, if_neg hlen]
        show lsCollapse cmp (l.foldl (lsStep cmp) ([], 0)).1 = _
        rw [hpend]
        rfl
      rw [hshow]
      constructor
      · refine hcp.trans ?_
        have h1 : (rs.reverse.flatten ++ r).Perm l := by
          rw [← revflat_cons]
          simpa using hperm
        exact h1
      · intro k
        rw [hcf k, ← revflat_cons]
        simpa using hf k

/-- C4 witness: the subtraction comparator on naturals, input
`[2, 1, 2]`. -/
theorem list_sort_stable_witness :
    ((∀ x y : ℕ, (x : Int) - y ≤ 0 ∨ (y : Int) - x ≤ 0) ∧
     (∀ x y z : ℕ, (x : Int) - y ≤ 0 → (y : Int) - z ≤ 0 → (x : Int) - z ≤ 0)) ∧
    ((∀ (a b : ℕ) (as bs : List ℕ), ((a : Int) - b) ≤ 0 →
      lmerge (fun a b : ℕ => (a : Int) - b) (a :: as) (b :: bs) =
        a :: lmerge (fun a b : ℕ => (a : Int) - b) as (b :: bs)) ∧
     (list_sortSeq (fun a b : ℕ => (a : Int) - b) [2, 1, 2]).Perm [2, 1, 2] ∧
     ∀ k, (list_sortSeq (fun a b : ℕ => (a : Int) - b) [2, 1, 2]).filter
        (keqB (fun a b : ℕ => (a : Int) - b) k) =
      [2, 1, 2].filter (keqB (fun a b : ℕ => (a : Int) - b) k)) :=
  ⟨⟨fun x y => show (x : Int) - y ≤ 0 ∨ (y : Int) - x ≤ 0 by omega,
    fun x y z h1 h2 => show (x : Int) - z ≤ 0 by
      have h1' : (x : Int) - y ≤ 0 := h1
      have h2' : (y : Int) - z ≤ 0 := h2
      omega⟩,
    list_sort_stable (fun a b : ℕ => (a : Int) - b)
      (fun x y => show (x : Int) - y ≤ 0 ∨ (y : Int) - x ≤ 0 by omega)
      (fun x y z h1 h2 => show (x : Int) - z ≤ 0 by
        have h1' : (x : Int) - y ≤ 0 := h1
        have h2' : (y : Int) - z ≤ 0 := h2
        omega) [2, 1, 2]⟩

theorem runSizesF_zero : ∀ g : ℕ, runSizesF g 0 = []
  | 0 => rfl
  | _ + 1 => rfl

/-- Fuel irrelevance for `runSizesF`. -/
theorem runSizesF_fuel : ∀ (f g n : ℕ), n ≤ f → n ≤ g →
    runSizesF f n = runSizesF g n := by
  intro f
  induction f with
  | zero =>
    intro g n hf _
    obtain rfl : n = 0 := by omega
    rw [runSizesF_zero, runSizesF_zero]
  | succ f ih =>
    intro g n hf hg
    match n with
    | 0 => rw [runSizesF_zero, runSizesF_zero]
    | 1 =>
      obtain ⟨g2, rfl⟩ : ∃ g2, g = g2 + 1 := ⟨g - 1, by omega⟩
      rfl
    | m + 2 =>
      obtain ⟨g2, rfl⟩ : ∃ g2, g = g2 + 1 := ⟨g - 1, by omega⟩
      simp only [runSizesF]
      rw [ih g2 ((m + 2) / 2) (by omega) (by omega)]

theorem runSizes_rec (n : ℕ) (h : 2 ≤ n) :
    runSizes n = if n % 2 = 0 then 1 :: 1 :: (runSizes (n / 2)).tail.map (2 * ·)
      else 1 :: (runSizes (n / 2)).map (2 * ·) := by
  obtain ⟨m, rfl⟩ : ∃ m, n = m + 2 := ⟨n - 2, by omega⟩
  show runSizesF (m + 1 + 1) (m + 2) = _
  simp only [runSizesF]
  rw [show runSizesF (m + 1) ((m + 2) / 2) = runSizes ((m + 2) / 2) from
    runSizesF_fuel (m + 1) ((m + 2) / 2) ((m + 2) / 2) (by omega) le_rfl]

theorem runSizes_even {n : ℕ} (h2 : 2 ≤ n) (he : n % 2 = 0) :
    runSizes n = 1 :: 1 :: (runSizes (n / 2)).tail.map (2 * ·) := by
  rw [runSizes_rec n h2, if_pos he]

theorem runSizes_odd {n : ℕ} (h2 : 2 ≤ n) (ho : n % 2 = 1) :
    runSizes n = 1 :: (runSizes (n / 2)).map (2 * ·) := by
  rw [runSizes_rec n h2, if_neg (by omega)]

/-- Every non-empty size profile starts with the just-pushed run of
size 1. -/
theorem runSizes_head (n : ℕ) (h1 : 1 ≤ n) : ∃ t, runSizes n = 1 :: t := by
  match n, h1 with
  | 1, _ => exact ⟨[], rfl⟩
  | n + 2, _ =>
    by_cases he : (n + 2) % 2 = 0
    · exact ⟨_, runSizes_even (by omega) he⟩
    · exact ⟨_, runSizes_odd (by omega) (by omega)⟩

/-- The pending-stack walk acts on the run-length profile as
`sizeWalk`. -/
theorem lsWalk_map_length (cmp : α → α → Int) :
    ∀ (p : List (List α)) (bits : ℕ),
    (lsWalk cmp bits p).map List.length = sizeWalk bits (p.map List.length) := by
  intro p
  induction p with
  | nil => intro bits; rfl
  | cons r rest ih =>
    intro bits
    by_cases hodd : bits % 2 = 1
    · simp [lsWalk, sizeWalk, hodd, ih]
    · by_cases hz : bits = 0
      · subst hz
        simp [lsWalk, sizeWalk]
      · match rest with
        | [] => simp [lsWalk, sizeWalk, hodd, hz]
        | b :: rest2 => simp [lsWalk, sizeWalk, hodd, hz, lmerge_length]

/-- `sizeWalk` commutes with doubling every run size (the walk only
compares the bit pattern and adds sizes). -/
theorem sizeWalk_map_double : ∀ (L : List ℕ) (bits : ℕ),
    sizeWalk bits (L.map (2 * ·)) = (sizeWalk bits L).map (2 * ·) := by
  intro L
  induction L with
  | nil => intro bits; rfl
  | cons a L ih =>
    intro bits
    by_cases hodd : bits % 2 = 1
    · simp [sizeWalk, hodd, ih]
    · by_cases hz : bits = 0
      · subst hz
        simp [sizeWalk]
      · match L with
        | [] => simp [sizeWalk, hodd, hz]
        | b :: L2 =>
          simp only [List.map_cons, sizeWalk, hodd, if_false, hz, ne_eq,
            not_false_eq_true, if_true]
          congr 1
          omega

/-- The key step: on the size profile for counter value `c`, the walk
performs exactly the merge that turns it into the profile for `c + 1`
(minus the newly pushed singleton). -/
theorem sizeWalk_runSizes : ∀ c : ℕ, sizeWalk c (runSizes c) = (runSizes (c + 1)).tail := by
  intro c
  induction c using Nat.strong_induction_on with
  | _ c ih =>
    rcases c with - | (- | c)
    · rfl
    · rfl
    · by_cases he : (c + 2) % 2 = 0
      · have hm1 : 1 ≤ (c + 2) / 2 := by omega
        obtain ⟨t, ht⟩ := runSizes_head ((c + 2) / 2) hm1
        rw [runSizes_even (by omega) he]
        have hstep : sizeWalk (c + 2)
            (1 :: 1 :: ((runSizes ((c + 2) / 2)).tail.map (2 * ·))) =
            (1 + 1) :: (runSizes ((c + 2) / 2)).tail.map (2 * ·) := by
          have hno : ¬ ((c + 2) % 2 = 1) := by omega
          simp [sizeWalk, hno, show c + 2 ≠ 0 by omega]
          omega
        rw [hstep, @runSizes_odd (c + 3) (by omega) (by omega),
          show (c + 3) / 2 = (c + 2) / 2 by omega, ht]
        simp
      · have ho : (c + 2) % 2 = 1 := by omega
        rw [runSizes_odd (by omega) ho]
        have h1 : sizeWalk (c + 2) (1 :: (runSizes ((c + 2) / 2)).map (2 * ·)) =
            1 :: sizeWalk ((c + 2) / 2) ((runSizes ((c + 2) / 2)).map (2 * ·)) := by
          simp [sizeWalk, ho]
        rw [h1, sizeWalk_map_double, ih ((c + 2) / 2) (by omega),
          @runSizes_even (c + 3) (by omega) (by omega),
          show (c + 3) / 2 = (c + 2) / 2 + 1 by omega]
        rfl

/-- The run-length profile of the pending stack after the main loop. -/
theorem lsLoop_sizes (cmp : α → α → Int) :
    ∀ (l : List α) (p : List (List α)) (c : ℕ),
    p.map List.length = runSizes c →
    ((l.foldl (lsStep cmp) (p, c)).1).map List.length = runSizes (c + l.length) ∧
    (l.foldl (lsStep cmp) (p, c)).2 = c + l.length := by
  intro l
  induction l with
  | nil =>
    intro p c h
    exact ⟨by simpa using h, by simp⟩
  | cons x l ih =>
    intro p c h
    rw [List.foldl_cons]
    have hstep : (lsStep cmp (p, c) x) = ([x] :: lsWalk cmp c p, c + 1) := rfl
    rw [hstep]
    have hsz : (([x] :: lsWalk cmp c p).map List.length) = runSizes (c + 1) := by
      rw [List.map_cons, lsWalk_map_length, h, sizeWalk_runSizes]
      obtain ⟨t, ht⟩ := runSizes_head (c + 1) (by omega)
      rw [ht]
      rfl
    obtain ⟨h1, h2⟩ := ih ([x] :: lsWalk cmp c p) (c + 1) hsz
    refine ⟨?_, ?_⟩
    · rw [h1]
      congr 1
      simp only [List.length_cons]
      omega
    · rw [h2]
      simp only [List.length_cons]
      omega

theorem count_map_double : ∀ (t : List ℕ) (s : ℕ),
    (t.map (2 * ·)).count s = if s % 2 = 0 then t.count (s / 2) else 0 := by
  intro t s
  induction t with
  | nil => simp
  | cons a t ih =>
    simp only [List.map_cons, List.count_cons, ih]
    by_cases he : s % 2 = 0
    · simp only [he, if_pos]
      congr 1
      by_cases hsa : s / 2 = a
      · have : 2 * a = s := by omega
        simp [hsa, this]
      · have h2 : ¬ (2 * a = s) := by omega
        have hsa2 : ¬ (a = s / 2) := fun h => hsa h.symm
        simp [hsa2, h2]
    · have h2 : ¬ (2 * a = s) := by omega
      simp [he, h2]

/-- Structural facts about the run-size profile: all sizes are powers
of two, at most two runs of each size, ordered smallest (front/newest)
to largest (back/oldest), summing to the element count. -/
theorem runSizes_props : ∀ n : ℕ, 1 ≤ n →
    (∀ s ∈ runSizes n, ∃ k, s = 2 ^ k) ∧
    (∀ s, (runSizes n).count s ≤ 2) ∧
    (runSizes n).Pairwise (· ≤ ·) ∧
    (runSizes n).sum = n := by
  have hsum_map : ∀ u : List ℕ, (u.map (2 * ·)).sum = 2 * u.sum := by
    intro u
    induction u with
    | nil => rfl
    | cons a u ihu =>
      simp only [List.map_cons, List.sum_cons] at *
      omega
  intro n
  induction n using Nat.strong_induction_on with
  | _ n ih =>
    intro h1
    rcases n with - | (- | c)
    · omega
    · have hr1 : runSizes 1 = [1] := rfl
      refine ⟨?_, ?_, ?_, ?_⟩
      · rw [hr1]
        intro s hs
        exact ⟨0, by simpa using hs⟩
      · intro s
        rw [hr1]
        simp only [List.count_cons, List.count_nil, beq_iff_eq]
        split_ifs <;> omega
      · rw [hr1]
        exact List.pairwise_singleton _ _
      · rw [hr1]
        rfl
    · have hm1 : 1 ≤ (c + 2) / 2 := by omega
      obtain ⟨hpow, hcount, hsort, hsum⟩ := ih ((c + 2) / 2) (by omega) hm1
      obtain ⟨t, ht⟩ := runSizes_head ((c + 2) / 2) hm1
      have htpow : ∀ s ∈ t, ∃ k, s = 2 ^ k := fun s hs =>
        hpow s (by rw [ht]; exact List.mem_cons_of_mem 1 hs)
      have htpos : ∀ s ∈ t, 1 ≤ s := by
        intro s hs
        obtain ⟨k, rfl⟩ := htpow s hs
        exact Nat.one_le_two_pow
      have htsort : t.Pairwise (· ≤ ·) := by
        rw [ht] at hsort
        exact (List.pairwise_cons.mp hsort).2
      by_cases he : (c + 2) % 2 = 0
      · rw [runSizes_even (by omega) he, ht]
        simp only [List.tail_cons]
        refine ⟨?_, ?_, ?_, ?_⟩
        · intro s hs
          rcases List.mem_cons.mp hs with rfl | hs
          · exact ⟨0, rfl⟩
          rcases List.mem_cons.mp hs with rfl | hs
          · exact ⟨0, rfl⟩
          obtain ⟨u, hu, rfl⟩ := List.mem_map.mp hs
          obtain ⟨k, rfl⟩ := htpow u hu
          exact ⟨k + 1, by ring⟩
        · intro s
          have hcnt := hcount (s / 2)
          rw [ht] at hcnt
          simp only [List.count_cons, List.count_nil, beq_iff_eq] at hcnt
          simp only [List.count_cons, count_map_double, beq_iff_eq]
          split_ifs at hcnt ⊢ <;> omega
        · refine List.Pairwise.cons ?_ (List.Pairwise.cons ?_ ?_)
          · intro s hs
            rcases List.mem_cons.mp hs with rfl | hs
            · exact le_refl 1
            · obtain ⟨u, hu, rfl⟩ := List.mem_map.mp hs
              have := htpos u hu
              omega
          · intro s hs
            obtain ⟨u, hu, rfl⟩ := List.mem_map.mp hs
            have := htpos u hu
            omega
          · refine List.Pairwise.map _ ?_ htsort
            intro a b hab
            omega
        · rw [ht] at hsum
          simp only [List.sum_cons] at hsum
          simp only [List.sum_cons, hsum_map]
          omega
      · have ho : (c + 2) % 2 = 1 := by omega
        rw [runSizes_odd (by omega) ho]
        refine ⟨?_, ?_, ?_, ?_⟩
        · intro s hs
          rcases List.mem_cons.mp hs with rfl | hs
          · exact ⟨0, rfl⟩
          obtain ⟨u, hu, rfl⟩ := List.mem_map.mp hs
          obtain ⟨k, rfl⟩ := hpow u hu
          exact ⟨k + 1, by ring⟩
        · intro s
          have hcnt := hcount (s / 2)
          simp only [List.count_cons, count_map_double, beq_iff_eq]
          split_ifs <;> omega
        · refine List.Pairwise.cons ?_ ?_
          · intro s hs
            obtain ⟨u, hu, rfl⟩ := List.mem_map.mp hs
            have hupos : 1 ≤ u := by
              obtain ⟨k, rfl⟩ := hpow u hu
              exact Nat.one_le_two_pow
            omega
          · refine List.Pairwise.map _ ?_ hsort
            intro a b hab
            omega
        · simp only [List.sum_cons, hsum_map, hsum]
          omega

/-- C5 (amended): after each iteration of `list_sort`'s main loop —
i.e. after consuming the first `i` elements of the input, `1 <= i <=
n` — the element counter equals `i`; every pending run is sorted (for
any comparator total and transitive in the `<= 0` sense); and the
run-size profile front (newest) to back (oldest) consists of powers of
two, with at most two runs of each size, in non-decreasing order,
summing to the counter.  (The original claim's final clause — that the
sizes are the set bits of `count` — is false; see the
size-profile-vs-set-bits counterexample.) -/
theorem pending_stack_invariant (cmp : α → α → Int)
    (htot : ∀ x y, cmp x y ≤ 0 ∨ cmp y x ≤ 0)
    (htrans : ∀ x y z, cmp x y ≤ 0 → cmp y z ≤ 0 → cmp x z ≤ 0)
    (l : List α) (i : ℕ) (h1 : 1 ≤ i) (h2 : i ≤ l.length) :
    ((l.take i).foldl (lsStep cmp) ([], 0)).2 = i ∧
    (∀ r ∈ ((l.take i).foldl (lsStep cmp) ([], 0)).1,
      r.Pairwise (fun x y => cmp x y ≤ 0)) ∧
    ((l.take i).foldl (lsStep cmp) ([], 0)).1.map List.length = runSizes i ∧
    (∀ s ∈ ((l.take i).foldl (lsStep cmp) ([], 0)).1.map List.length,
      ∃ k, s = 2 ^ k) ∧
    (∀ s, (((l.take i).foldl (lsStep cmp) ([], 0)).1.map List.length).count s ≤ 2) ∧
    (((l.take i).foldl (lsStep cmp) ([], 0)).1.map List.length).Pairwise (· ≤ ·) ∧
    (((l.take i).foldl (lsStep cmp) ([], 0)).1.map List.length).sum = i := by
  have htake : (l.take i).length = i := by
    rw [List.length_take]
    omega
  obtain ⟨hsz, hc⟩ := lsLoop_sizes cmp (l.take i) [] 0 rfl
  rw [htake, Nat.zero_add] at hsz hc
  obtain ⟨hs, -, -, -⟩ := lsLoop_inv cmp htot htrans (l.take i) [] 0
    (by intro r hr; simp at hr)
  obtain ⟨hp, hcnt, hsort, hsum⟩ := runSizes_props i h1
  rw [hsz]
  exact ⟨hc, hs, rfl, hp, hcnt, hsort, hsum⟩

/-- C5 witness: the constant comparator, input `[10, 20, 30]`, after
the third iteration. -/
theorem pending_stack_invariant_witness :
    (1 ≤ 3 ∧ 3 ≤ ([10, 20, 30] : List ℕ).length) ∧
    ((([10, 20, 30] : List ℕ).take 3).foldl
        (lsStep (fun _ _ : ℕ => (0 : Int))) ([], 0)).2 = 3 ∧
    (∀ r ∈ ((([10, 20, 30] : List ℕ).take 3).foldl
        (lsStep (fun _ _ : ℕ => (0 : Int))) ([], 0)).1,
      r.Pairwise (fun x y => (0 : Int) ≤ 0)) ∧
    ((([10, 20, 30] : List ℕ).take 3).foldl
        (lsStep (fun _ _ : ℕ => (0 : Int))) ([], 0)).1.map List.length =
      runSizes 3 ∧
    (∀ s ∈ ((([10, 20, 30] : List ℕ).take 3).foldl
        (lsStep (fun _ _ : ℕ => (0 : Int))) ([], 0)).1.map List.length,
      ∃ k, s = 2 ^ k) ∧
    (∀ s, (((([10, 20, 30] : List ℕ).take 3).foldl
        (lsStep (fun _ _ : ℕ => (0 : Int))) ([], 0)).1.map List.length).count s ≤ 2) ∧
    (((([10, 20, 30] : List ℕ).take 3).foldl
        (lsStep (fun _ _ : ℕ => (0 : Int))) ([], 0)).1.map List.length).Pairwise
      (· ≤ ·) ∧
    (((([10, 20, 30] : List ℕ).take 3).foldl
        (lsStep (fun _ _ : ℕ => (0 : Int))) ([], 0)).1.map List.length).sum = 3 :=
  ⟨⟨by decide, by decide⟩,
    pending_stack_invariant (fun _ _ : ℕ => (0 : Int))
      (fun _ _ => Or.inl (le_refl (0 : Int)))
      (fun _ _ _ _ _ => le_refl (0 : Int))
      [10, 20, 30] 3 (by decide) (by decide)⟩

/-- C5 counterexample: after five iterations (count = 5) the pending
run sizes are `[1, 2, 2]`, while the set bits of 5 give sizes
`[1, 4]` — the profile does not correspond to the set bits of the
counter, for any reading of "correspond" that preserves the multiset
of sizes. -/
theorem pending_sizes_not_set_bits :
    ((List.range 5).foldl (lsStep (fun _ _ : ℕ => (0 : Int))) ([], 0)).2 = 5 ∧
    ((List.range 5).foldl (lsStep (fun _ _ : ℕ => (0 : Int))) ([], 0)).1.map
      List.length = [1, 2, 2] ∧
    setBitSizes 5 = [1, 4] ∧
    ¬ ([1, 2, 2] : List ℕ).Perm [1, 4] := by
  refine ⟨by decide, by decide, by decide, ?_⟩
  intro h
  have := h.length_eq
  simp at this

theorem cycNextGo_adj : ∀ (u : List ℕ) (wrap x y : ℕ) (v : List ℕ), x ∉ u →
    cycNextGo wrap x (u ++ x :: y :: v) = y := by
  intro u
  induction u with
  | nil =>
    intro wrap x y v _
    simp [cycNextGo]
  | cons a u ih =>
    intro wrap x y v hx
    have hax : ¬ (a = x) := by
      intro h
      exact hx (h ▸ List.mem_cons_self a u)
    rcases hu : u ++ x :: y :: v with - | ⟨b, rest⟩
    · exact absurd hu (by simp)
    · show cycNextGo wrap x (a :: (u ++ x :: y :: v)) = y
      rw [hu]
      show (if a = x then b else cycNextGo wrap x (b :: rest)) = y
      rw [if_neg hax, ← hu]
      exact ih wrap x y v (fun h => hx (List.mem_cons_of_mem a h))

theorem cycNextGo_last : ∀ (u : List ℕ) (wrap x : ℕ), x ∉ u →
    cycNextGo wrap x (u ++ [x]) = wrap := by
  intro u
  induction u with
  | nil =>
    intro wrap x _
    simp [cycNextGo]
  | cons a u ih =>
    intro wrap x hx
    have hax : ¬ (a = x) := by
      intro h
      exact hx (h ▸ List.mem_cons_self a u)
    rcases hu : u ++ [x] with - | ⟨b, rest⟩
    · exact absurd hu (by simp)
    · show cycNextGo wrap x (a :: (u ++ [x])) = wrap
      rw [hu]
      show (if a = x then b else cycNextGo wrap x (b :: rest)) = wrap
      rw [if_neg hax, ← hu]
      exact ih wrap x (fun h => hx (List.mem_cons_of_mem a h))

/-- In a duplicate-free chain the cyclic successor of an element with a
following element is that element. -/
theorem cyclicNext_adj {c u v : List ℕ} {x y : ℕ} (hnd : c.Nodup)
    (hc : c = u ++ x :: y :: v) : cyclicNext c x = y := by
  subst hc
  have hx : x ∉ u := by
    rcases List.nodup_append.mp hnd with ⟨-, -, hdisj⟩
    intro hmem
    exact hdisj hmem (List.mem_cons_self x (y :: v))
  exact cycNextGo_adj u _ x y v hx

/-- The cyclic successor of the last element is the head. -/
theorem cyclicNext_last {c u : List ℕ} {x : ℕ} (hnd : c.Nodup)
    (hc : c = u ++ [x]) : cyclicNext c x = c.headD x := by
  subst hc
  have hx : x ∉ u := by
    rcases List.nodup_append.mp hnd with ⟨-, -, hdisj⟩
    intro hmem
    exact hdisj hmem (List.mem_cons_self x [])
  exact cycNextGo_last u _ x hx

theorem headD_irrel {c : List ℕ} (hne : c ≠ []) (a b : ℕ) : c.headD a = c.headD b := by
  cases c with
  | nil => exact absurd rfl hne
  | cons x l => rfl

theorem cyclicPrev_adj {c u v : List ℕ} {x y : ℕ} (hnd : c.Nodup)
    (hc : c = u ++ x :: y :: v) : cyclicPrev c y = x := by
  have hrev : c.reverse = v.reverse ++ y :: x :: u.reverse := by
    subst hc
    simp
  exact cyclicNext_adj (List.nodup_reverse.mpr hnd) hrev

/-- The cyclic predecessor of the head is the last element. -/
theorem cyclicPrev_head {c u : List ℕ} {x : ℕ} (hnd : c.Nodup)
    (hc : c = x :: u) : cyclicPrev c x = c.getLastD x := by
  have hrev : c.reverse = u.reverse ++ [x] := by
    subst hc
    simp
  have h1 : cyclicNext c.reverse x = c.reverse.headD x :=
    cyclicNext_last (List.nodup_reverse.mpr hnd) hrev
  have h2 : c.reverse.headD x = c.getLastD x := by
    subst hc
    rw [List.headD_eq_head? , List.getLastD_eq_getLast?, List.head?_reverse]
  exact h1.trans h2

theorem getLastD_concat_eq (u : List ℕ) (x d : ℕ) : (u ++ [x]).getLastD d = x := by
  rw [List.getLastD_eq_getLast?, List.getLast?_concat]
  rfl

theorem getLast_concat_eq (u : List ℕ) (x : ℕ) (h : u ++ [x] ≠ []) :
    (u ++ [x]).getLast h = x := by
  have h1 := List.getLast?_eq_getLast (u ++ [x]) h
  rw [List.getLast?_concat] at h1
  exact (Option.some_injective _ h1).symm

theorem headD_mem {c : List ℕ} (hne : c ≠ []) (d : ℕ) : c.headD d ∈ c := by
  cases c with
  | nil => exact absurd rfl hne
  | cons a l => exact List.mem_cons_self a l

theorem getLast_eq_getLastD {c : List ℕ} (hne : c ≠ []) (d : ℕ) :
    c.getLast hne = c.getLastD d := by
  rw [List.getLastD_eq_getLast?, List.getLast?_eq_getLast c hne]
  rfl

theorem cyclicPrev_reverse (c : List ℕ) (x : ℕ) :
    cyclicPrev c.reverse x = cyclicNext c x := by
  rw [cyclicPrev, List.reverse_reverse]

theorem cyclicNext_mem {c : List ℕ} (hnd : c.Nodup) {x : ℕ} (hx : x ∈ c) :
    cyclicNext c x ∈ c := by
  obtain ⟨u, v, hc⟩ := List.append_of_mem hx
  match v, hc with
  | [], hc =>
    rw [cyclicNext_last hnd hc]
    exact headD_mem (by subst hc; simp) x
  | y :: v', hc =>
    rw [cyclicNext_adj hnd hc]
    subst hc
    simp

theorem cyclicPrev_mem {c : List ℕ} (hnd : c.Nodup) {x : ℕ} (hx : x ∈ c) :
    cyclicPrev c x ∈ c := by
  have h := cyclicNext_mem (List.nodup_reverse.mpr hnd) (List.mem_reverse.mpr hx)
  rw [List.mem_reverse] at h
  exact h

theorem cyclicPrev_cyclicNext {c : List ℕ} (hnd : c.Nodup) {x : ℕ} (hx : x ∈ c) :
    cyclicPrev c (cyclicNext c x) = x := by
  obtain ⟨u, v, hc⟩ := List.append_of_mem hx
  match v, hc with
  | y :: v', hc =>
    rw [cyclicNext_adj hnd hc, cyclicPrev_adj hnd hc]
  | [], hc =>
    rw [cyclicNext_last hnd hc]
    match u, hc with
    | [], hc =>
      subst hc
      show cyclicPrev [x] x = x
      simp [cyclicPrev, cyclicNext, cycNextGo]
    | h :: u', hc =>
      have h1 : ((h :: u') ++ [x] : List ℕ).headD x = h := rfl
      subst hc
      rw [h1, cyclicPrev_head hnd rfl]
      show ((h :: u') ++ [x]).getLastD h = x
      exact getLastD_concat_eq (h :: u') x h

theorem cyclicNext_cyclicPrev {c : List ℕ} (hnd : c.Nodup) {x : ℕ} (hx : x ∈ c) :
    cyclicNext c (cyclicPrev c x) = x := by
  have h := cyclicPrev_cyclicNext (List.nodup_reverse.mpr hnd)
    (List.mem_reverse.mpr hx)
  rw [cyclicPrev_reverse] at h
  exact h

theorem cyclicNext_reach_head {c : List ℕ} (hnd : c.Nodup) :
    ∀ (v u : List ℕ) (x : ℕ), c = u ++ x :: v →
    ∃ k, (cyclicNext c)^[k] x = c.headD 0 := by
  intro v
  induction v with
  | nil =>
    intro u x hc
    refine ⟨1, ?_⟩
    rw [Function.iterate_one, cyclicNext_last hnd hc,
      headD_irrel (by subst hc; simp) x 0]
  | cons y v' ih =>
    intro u x hc
    obtain ⟨k, hk⟩ := ih (u ++ [x]) y (by subst hc; simp)
    refine ⟨k + 1, ?_⟩
    rw [Function.iterate_succ_apply, cyclicNext_adj hnd hc]
    exact hk

theorem cyclicNext_reach_from_head {c : List ℕ} (hnd : c.Nodup) :
    ∀ (u v : List ℕ) (y : ℕ), c = u ++ y :: v →
    ∃ k, (cyclicNext c)^[k] (c.headD 0) = y := by
  intro u
  induction u using List.reverseRecOn with
  | nil =>
    intro v y hc
    refine ⟨0, ?_⟩
    subst hc
    rfl
  | append_singleton u' a ih =>
    intro v y hc
    obtain ⟨k, hk⟩ := ih (y :: v) a (by subst hc; simp)
    refine ⟨k + 1, ?_⟩
    rw [Function.iterate_succ_apply', hk,
      cyclicNext_adj hnd (show c = u' ++ a :: y :: v by subst hc; simp)]

theorem cyclicNext_reach {c : List ℕ} (hnd : c.Nodup) {x y : ℕ}
    (hx : x ∈ c) (hy : y ∈ c) : ∃ k, (cyclicNext c)^[k] x = y := by
  obtain ⟨u1, v1, h1⟩ := List.append_of_mem hx
  obtain ⟨u2, v2, h2⟩ := List.append_of_mem hy
  obtain ⟨k1, hk1⟩ := cyclicNext_reach_head hnd v1 u1 x h1
  obtain ⟨k2, hk2⟩ := cyclicNext_reach_from_head hnd u2 v2 y h2
  refine ⟨k2 + k1, ?_⟩
  rw [Function.iterate_add_apply, hk1, hk2]

/-- A pointer state that agrees pointwise with the cyclic maps of a
chain `c'` (any ordering of the nodes) satisfies the ring invariant. -/
theorem ringInv_of_cyclic (s : DL) (c c' : List ℕ) (hperm : c'.Perm c)
    (hnd : c.Nodup) (sent : ℕ) (hsent : sent ∈ c)
    (hmaps : ∀ x ∈ c, s.nxt x = cyclicNext c' x ∧ s.prv x = cyclicPrev c' x) :
    RingInv s sent c := by
  have hnd' : c'.Nodup := hperm.nodup_iff.mpr hnd
  have hmem : ∀ z : ℕ, z ∈ c' ↔ z ∈ c := fun z => hperm.mem_iff
  refine ⟨hsent, fun x hx => ?_⟩
  obtain ⟨hnx, hpx⟩ := hmaps x hx
  have hxc' : x ∈ c' := (hmem x).mpr hx
  have hnmem : s.nxt x ∈ c := by
    rw [hnx, ← hmem]
    exact cyclicNext_mem hnd' hxc'
  have hpmem : s.prv x ∈ c := by
    rw [hpx, ← hmem]
    exact cyclicPrev_mem hnd' hxc'
  refine ⟨hnmem, hpmem, ?_, ?_, ?_⟩
  · obtain ⟨hn2, -⟩ := hmaps (s.prv x) hpmem
    rw [hn2, hpx]
    exact cyclicNext_cyclicPrev hnd' hxc'
  · obtain ⟨-, hp2⟩ := hmaps (s.nxt x) hnmem
    rw [hp2, hnx]
    exact cyclicPrev_cyclicNext hnd' hxc'
  · have hagree : ∀ (k : ℕ) (z : ℕ), z ∈ c →
        s.nxt^[k] z = (cyclicNext c')^[k] z := by
      intro k
      induction k with
      | zero => intro z _; rfl
      | succ k ihk =>
        intro z hz
        rw [Function.iterate_succ_apply, Function.iterate_succ_apply,
          (hmaps z hz).1]
        exact ihk _ ((hmem _).mp (cyclicNext_mem hnd' ((hmem z).mpr hz)))
    obtain ⟨k, hk⟩ := cyclicNext_reach hnd' hxc' ((hmem sent).mpr hsent)
    exact ⟨k, by rw [hagree k x hx, hk]⟩

/-- A state whose links realise every cyclic adjacency of a
duplicate-free chain (and close the cycle last-to-head) agrees
pointwise with the cyclic maps. -/
theorem maps_of_adj {s : DL} {c : List ℕ} (hnd : c.Nodup) (hne : c ≠ [])
    (hadj : ∀ (u : List ℕ) (x y : ℕ) (v : List ℕ), c = u ++ x :: y :: v →
      s.nxt x = y ∧ s.prv y = x)
    (hlastn : s.nxt (c.getLast hne) = c.headD 0)
    (hheadp : s.prv (c.headD 0) = c.getLast hne) :
    ∀ x ∈ c, s.nxt x = cyclicNext c x ∧ s.prv x = cyclicPrev c x := by
  intro x hx
  obtain ⟨u, v, hc⟩ := List.append_of_mem hx
  constructor
  · match v, hc with
    | y :: v', hc =>
      rw [(hadj u x y v' hc).1, cyclicNext_adj hnd hc]
    | [], hc =>
      have hxl : c.getLast hne = x := by
        subst hc
        exact getLast_concat_eq u x hne
      rw [cyclicNext_last hnd hc, headD_irrel hne x 0, ← hxl]
      exact hlastn
  · rcases List.eq_nil_or_concat u with rfl | ⟨u'', w, hu⟩
    · have hh : c.headD 0 = x := by
        rw [hc]
        rfl
      rw [cyclicPrev_head hnd hc, ← getLast_eq_getLastD hne x, ← hh, hheadp]
    · subst hu
      have hc2 : c = u'' ++ w :: x :: v := by
        simpa [List.concat_eq_append] using hc
      rw [(hadj u'' w x v hc2).2, cyclicPrev_adj hnd hc2]

theorem writeNexts_prv (s : DL) (curr : ℕ) : ∀ l : List ℕ,
    (writeNexts s curr l).prv = s.prv := by
  intro l
  induction l generalizing s curr with
  | nil => rfl
  | cons n rest ih =>
    show (writeNexts (setNext s curr n) n rest).prv = s.prv
    rw [ih]
    rfl

theorem writeNexts_untouched (s : DL) (curr : ℕ) : ∀ (l : List ℕ) (x : ℕ),
    x ∉ (curr :: l).dropLast → (writeNexts s curr l).nxt x = s.nxt x := by
  intro l
  induction l generalizing s curr with
  | nil => intro x _; rfl
  | cons n rest ih =>
    intro x hx
    have hxc : x ≠ curr := by
      intro h
      refine hx ?_
      rw [h]
      show curr ∈ (curr :: n :: rest).dropLast
      rw [List.dropLast_cons₂]
      exact List.mem_cons_self _ _
    have hx2 : x ∉ (n :: rest).dropLast := by
      intro h
      refine hx ?_
      show x ∈ (curr :: n :: rest).dropLast
      rw [List.dropLast_cons₂]
      exact List.mem_cons_of_mem _ h
    show (writeNexts (setNext s curr n) n rest).nxt x = s.nxt x
    rw [ih _ _ _ hx2]
    exact Function.update_noteq hxc _ _

theorem writeNexts_adj (s : DL) (curr : ℕ) : ∀ (l u : List ℕ) (x y : ℕ) (v : List ℕ),
    (curr :: l).Nodup → (curr :: l) = u ++ x :: y :: v →
    (writeNexts s curr l).nxt x = y := by
  intro l
  induction l generalizing s curr with
  | nil =>
    intro u x y v _ hc
    exfalso
    have hlen := congrArg List.length hc
    simp only [List.length_cons, List.length_append, List.length_nil] at hlen
    omega
  | cons n rest ih =>
    intro u x y v hnd hc
    match u, hc with
    | [], hc =>
      obtain ⟨rfl, rfl, rfl⟩ : curr = x ∧ n = y ∧ rest = v := by
        simpa using hc
      show (writeNexts (setNext s curr n) n rest).nxt curr = n
      have hx : curr ∉ (n :: rest).dropLast := by
        intro hmem
        have h2 : curr ∈ n :: rest := (List.dropLast_sublist _).mem hmem
        exact (List.nodup_cons.mp hnd).1 h2
      rw [writeNexts_untouched _ _ _ _ hx]
      exact Function.update_same _ _ _
    | a :: u2, hc =>
      obtain ⟨rfl, hc2⟩ : curr = a ∧ n :: rest = u2 ++ x :: y :: v := by
        simpa using hc
      show (writeNexts (setNext s curr n) n rest).nxt x = y
      exact ih _ _ u2 x y v (List.nodup_cons.mp hnd).2 hc2

theorem writePrevs_nxt (s : DL) (curr : ℕ) : ∀ l : List ℕ,
    (writePrevs s curr l).1.nxt = s.nxt := by
  intro l
  induction l generalizing s curr with
  | nil => rfl
  | cons n rest ih =>
    show (writePrevs (setPrev s n curr) n rest).1.nxt = s.nxt
    rw [ih]
    rfl

theorem writePrevs_snd (s : DL) (curr : ℕ) : ∀ l : List ℕ,
    (writePrevs s curr l).2 = l.getLastD curr := by
  intro l
  induction l generalizing s curr with
  | nil => rfl
  | cons n rest ih =>
    show (writePrevs (setPrev s n curr) n rest).2 = _
    rw [ih, List.getLastD_cons]

theorem writePrevs_untouched (s : DL) (curr : ℕ) : ∀ (l : List ℕ) (y : ℕ),
    y ∉ l → (writePrevs s curr l).1.prv y = s.prv y := by
  intro l
  induction l generalizing s curr with
  | nil => intro y _; rfl
  | cons n rest ih =>
    intro y hy
    show (writePrevs (setPrev s n curr) n rest).1.prv y = s.prv y
    rw [ih _ _ _ (fun h => hy (List.mem_cons_of_mem n h))]
    refine Function.update_noteq (fun h => hy ?_) _ _
    rw [h]
    exact List.mem_cons_self n rest

theorem writePrevs_adj (s : DL) (curr : ℕ) : ∀ (l u : List ℕ) (x y : ℕ) (v : List ℕ),
    (curr :: l).Nodup → (curr :: l) = u ++ x :: y :: v →
    (writePrevs s curr l).1.prv y = x := by
  intro l
  induction l generalizing s curr with
  | nil =>
    intro u x y v _ hc
    exfalso
    have hlen := congrArg List.length hc
    simp only [List.length_cons, List.length_append, List.length_nil] at hlen
    omega
  | cons n rest ih =>
    intro u x y v hnd hc
    match u, hc with
    | [], hc =>
      obtain ⟨rfl, rfl, rfl⟩ : curr = x ∧ n = y ∧ rest = v := by
        simpa using hc
      show (writePrevs (setPrev s n curr) n rest).1.prv n = curr
      have hy : n ∉ rest := by
        have h2 := (List.nodup_cons.mp hnd).2
        exact (List.nodup_cons.mp h2).1
      rw [writePrevs_untouched _ _ _ _ hy]
      exact Function.update_same _ _ _
    | a :: u2, hc =>
      obtain ⟨rfl, hc2⟩ : curr = a ∧ n :: rest = u2 ++ x :: y :: v := by
        simpa using hc
      show (writePrevs (setPrev s n curr) n rest).1.prv y = x
      exact ih _ _ u2 x y v (List.nodup_cons.mp hnd).2 hc2

theorem getLastD_append_cons : ∀ (u : List ℕ) (x : ℕ) (l : List ℕ) (d : ℕ),
    (u ++ x :: l).getLastD d = (x :: l).getLastD d := by
  intro u
  induction u with
  | nil => intro x l d; rfl
  | cons a u ih =>
    intro x l d
    rw [List.cons_append, List.getLastD_cons, ih, List.getLastD_cons,
      List.getLastD_cons]

/-- A node with a successor in a duplicate-free chain is not its last
node. -/
theorem ne_getLast_of_succ {c u : List ℕ} {x y : ℕ} {v : List ℕ}
    (hnd : c.Nodup) (hne : c ≠ []) (hc : c = u ++ x :: y :: v) :
    x ≠ c.getLast hne := by
  intro hx
  have h3 : c.getLast hne ∈ y :: v := by
    rw [getLast_eq_getLastD hne 0, hc, getLastD_append_cons, List.getLastD_cons,
      List.getLastD_cons]
    exact List.getLastD_mem_cons v y
  have h4 : x ∉ y :: v := by
    rw [hc] at hnd
    exact (List.nodup_cons.mp (List.nodup_append.mp hnd).2.1).1
  rw [← hx] at h3
  exact h4 h3

/-- A node occurring after the head of a duplicate-free chain is not
its head. -/
theorem ne_headD_of_later {c u : List ℕ} {x y : ℕ} {v : List ℕ}
    (hnd : c.Nodup) (hc : c = u ++ x :: y :: v) : y ≠ c.headD 0 := by
  intro hy
  match u, hc with
  | [], hc =>
    subst hc
    simp only [List.nil_append, List.headD_cons] at hy
    exact (List.nodup_cons.mp hnd).1 (hy ▸ List.mem_cons_self y v)
  | a :: u2, hc =>
    subst hc
    simp only [List.cons_append, List.headD_cons] at hy
    refine (List.nodup_cons.mp hnd).1 ?_
    rw [← hy]
    simp

/-- `q_sort`'s relink phase leaves exactly the cyclic pointer maps of
the ring `h :: chain`. -/
theorem q_sortPtr_maps (s : DL) (h : ℕ) (chain : List ℕ)
    (hnd : (h :: chain).Nodup) :
    ∀ x ∈ h :: chain,
      (q_sortPtr s h chain).nxt x = cyclicNext (h :: chain) x ∧
      (q_sortPtr s h chain).prv x = cyclicPrev (h :: chain) x := by
  have hne : (h :: chain) ≠ [] := by simp
  have hlast : (writePrevs (writeNexts s h chain) h chain).2 =
      (h :: chain).getLast hne := by
    rw [writePrevs_snd, getLast_eq_getLastD hne 0, List.getLastD_cons]
  have hq : q_sortPtr s h chain =
      setPrev (setNext (writePrevs (writeNexts s h chain) h chain).1
          ((h :: chain).getLast hne) h) h ((h :: chain).getLast hne) := by
    rw [q_sortPtr, hlast]
  rw [hq]
  refine maps_of_adj hnd hne ?_ ?_ ?_
  · intro u x y v hc
    have hxl : x ≠ (h :: chain).getLast hne := ne_getLast_of_succ hnd hne hc
    have hyh : y ≠ (h :: chain).headD 0 := ne_headD_of_later hnd hc
    have hyh' : y ≠ h := by simpa using hyh
    constructor
    · show Function.update ((writePrevs (writeNexts s h chain) h chain).1.nxt)
        ((h :: chain).getLast hne) h x = y
      rw [Function.update_noteq hxl, writePrevs_nxt]
      exact writeNexts_adj s h chain u x y v hnd hc
    · show Function.update ((writePrevs (writeNexts s h chain) h chain).1.prv)
        h ((h :: chain).getLast hne) y = x
      rw [Function.update_noteq hyh']
      exact writePrevs_adj (writeNexts s h chain) h chain u x y v hnd hc
  · show Function.update ((writePrevs (writeNexts s h chain) h chain).1.nxt)
      ((h :: chain).getLast hne) h ((h :: chain).getLast hne) = (h :: chain).headD 0
    rw [Function.update_same]
    rfl
  · show Function.update ((writePrevs (writeNexts s h chain) h chain).1.prv)
      h ((h :: chain).getLast hne) ((h :: chain).headD 0) = (h :: chain).getLast hne
    show Function.update ((writePrevs (writeNexts s h chain) h chain).1.prv)
      h ((h :: chain).getLast hne) h = (h :: chain).getLast hne
    rw [Function.update_same]

/-- The reversal loop: walking the ring in original `next` order,
every visited node's `next` becomes its old cyclic predecessor and its
`prev` the old cyclic successor. -/
theorem revLoop_spec (c : List ℕ) (hnd : c.Nodup) :
    ∀ (todo u : List ℕ) (s : DL) (curr : ℕ),
    c = u ++ curr :: todo →
    (∀ x ∈ curr :: todo, s.nxt x = cyclicNext c x ∧ s.prv x = cyclicPrev c x) →
    (∀ x ∈ u, s.nxt x = cyclicPrev c x ∧ s.prv x = cyclicNext c x) →
    ∀ x ∈ c,
      (revLoop (c.headD 0) (todo.length + 1) s (cyclicPrev c curr) curr).nxt x =
        cyclicPrev c x ∧
      (revLoop (c.headD 0) (todo.length + 1) s (cyclicPrev c curr) curr).prv x =
        cyclicNext c x := by
  intro todo
  induction todo with
  | nil =>
    intro u s curr hc hpend hdone x hx
    have hnexteq : s.nxt curr = cyclicNext c curr :=
      (hpend curr (List.mem_cons_self curr [])).1
    have hlastc : cyclicNext c curr = c.headD 0 := by
      rw [cyclicNext_last hnd hc, headD_irrel (by subst hc; simp) curr 0]
    have hunf : revLoop (c.headD 0) 1 s (cyclicPrev c curr) curr =
        setPrev (setNext s curr (cyclicPrev c curr)) curr (s.nxt curr) := by
      show (if s.nxt curr = c.headD 0 then _ else _) = _
      rw [if_pos (hnexteq.trans hlastc)]
    simp only [List.length_nil, Nat.zero_add]
    rw [hunf]
    by_cases hxc : x = curr
    · subst hxc
      constructor
      · show Function.update s.nxt x (cyclicPrev c x) x = cyclicPrev c x
        exact Function.update_same _ _ _
      · show Function.update ((setNext s x (cyclicPrev c x)).prv) x (s.nxt x) x =
          cyclicNext c x
        rw [Function.update_same]
        exact hnexteq
    · have hxu : x ∈ u := by
        rw [hc] at hx
        rcases List.mem_append.mp hx with hx | hx
        · exact hx
        · exact absurd (by simpa using hx) hxc
      constructor
      · show Function.update s.nxt curr (cyclicPrev c curr) x = cyclicPrev c x
        rw [Function.update_noteq hxc]
        exact (hdone x hxu).1
      · show Function.update ((setNext s curr (cyclicPrev c curr)).prv) curr
          (s.nxt curr) x = cyclicNext c x
        rw [Function.update_noteq hxc]
        exact (hdone x hxu).2
  | cons t ts ih =>
    intro u s curr hc hpend hdone x hx
    have hnexteq : s.nxt curr = cyclicNext c curr :=
      (hpend curr (List.mem_cons_self curr (t :: ts))).1
    have hadj : cyclicNext c curr = t := cyclicNext_adj hnd hc
    have hprevt : cyclicPrev c t = curr := cyclicPrev_adj hnd hc
    have hth : t ≠ c.headD 0 := ne_headD_of_later hnd hc
    have hunf : revLoop (c.headD 0) ((t :: ts).length + 1) s (cyclicPrev c curr)
        curr = revLoop (c.headD 0) (ts.length + 1)
          (setPrev (setNext s curr (cyclicPrev c curr)) curr (s.nxt curr))
          curr (s.nxt curr) := by
      show (if s.nxt curr = c.headD 0 then _ else _) = _
      rw [if_neg (by rw [hnexteq, hadj]; exact hth)]
      rfl
    have hpend2 : ∀ z ∈ t :: ts,
        (setPrev (setNext s curr (cyclicPrev c curr)) curr (s.nxt curr)).nxt z =
          cyclicNext c z ∧
        (setPrev (setNext s curr (cyclicPrev c curr)) curr (s.nxt curr)).prv z =
          cyclicPrev c z := by
      intro z hz
      have hzc : z ≠ curr := by
        intro h
        rw [hc] at hnd
        have h2 := (List.nodup_cons.mp (List.nodup_append.mp hnd).2.1).1
        exact h2 (h ▸ hz)
      constructor
      · show Function.update s.nxt curr (cyclicPrev c curr) z = cyclicNext c z
        rw [Function.update_noteq hzc]
        exact (hpend z (List.mem_cons_of_mem curr hz)).1
      · show Function.update ((setNext s curr (cyclicPrev c curr)).prv) curr
          (s.nxt curr) z = cyclicPrev c z
        rw [Function.update_noteq hzc]
        exact (hpend z (List.mem_cons_of_mem curr hz)).2
    have hdone2 : ∀ z ∈ u ++ [curr],
        (setPrev (setNext s curr (cyclicPrev c curr)) curr (s.nxt curr)).nxt z =
          cyclicPrev c z ∧
        (setPrev (setNext s curr (cyclicPrev c curr)) curr (s.nxt curr)).prv z =
          cyclicNext c z := by
      intro z hz
      rcases List.mem_append.mp hz with hzu | hzcur
      · have hzc : z ≠ curr := by
          intro h
          rw [hc] at hnd
          have h2 := (List.nodup_append.mp hnd).2.2
          exact h2 hzu (h ▸ List.mem_cons_self curr (t :: ts))
        constructor
        · show Function.update s.nxt curr (cyclicPrev c curr) z = cyclicPrev c z
          rw [Function.update_noteq hzc]
          exact (hdone z hzu).1
        · show Function.update ((setNext s curr (cyclicPrev c curr)).prv) curr
            (s.nxt curr) z = cyclicNext c z
          rw [Function.update_noteq hzc]
          exact (hdone z hzu).2
      · obtain rfl : z = curr := by simpa using hzcur
        constructor
        · show Function.update s.nxt z (cyclicPrev c z) z = cyclicPrev c z
          exact Function.update_same _ _ _
        · show Function.update ((setNext s z (cyclicPrev c z)).prv) z (s.nxt z) z =
            cyclicNext c z
          rw [Function.update_same]
          exact hnexteq
    have hihres := ih (u ++ [curr])
      (setPrev (setNext s curr (cyclicPrev c curr)) curr (s.nxt curr)) t
      (by rw [hc]; simp) hpend2 hdone2 x hx
    rw [hprevt] at hihres
    rw [hunf]
    rw [show s.nxt curr = t from hnexteq.trans hadj] at hihres ⊢
    exact hihres

theorem cyclic_singleton (x : ℕ) :
    cyclicNext [x] x = x ∧ cyclicPrev [x] x = x := by
  constructor
  · show cycNextGo x x [x] = x
    simp [cycNextGo]
  · show cycNextGo x x [x] = x
    simp [cycNextGo]

/-- `q_reverse` at the pointer level: on a well-formed ring it swaps
every node's `next` and `prev` pointers. -/
theorem q_reversePtr_maps (s : DL) (h : ℕ) (rest : List ℕ)
    (hnd : (h :: rest).Nodup)
    (hmaps : ∀ x ∈ h :: rest, s.nxt x = cyclicNext (h :: rest) x ∧
      s.prv x = cyclicPrev (h :: rest) x) :
    ∀ x ∈ h :: rest,
      (q_reversePtr s h (rest.length + 1)).nxt x = cyclicPrev (h :: rest) x ∧
      (q_reversePtr s h (rest.length + 1)).prv x = cyclicNext (h :: rest) x := by
  intro x hx
  by_cases hempty : s.nxt h = h
  · rw [q_reversePtr, if_pos hempty]
    match rest, hx, hmaps, hnd with
    | [], hx, hmaps, hnd =>
      obtain rfl : x = h := by simpa using hx
      obtain ⟨hn1, hp1⟩ := hmaps x (by simp)
      obtain ⟨hcn, hcp⟩ := cyclic_singleton x
      refine ⟨?_, ?_⟩
      · rw [hn1, hcn, hcp]
      · rw [hp1, hcp, hcn]
    | r0 :: rest', hx, hmaps, hnd =>
      exfalso
      have h1 := (hmaps h (by simp)).1
      rw [hempty] at h1
      have hadj : cyclicNext (h :: r0 :: rest') h = r0 :=
        cyclicNext_adj hnd (show h :: r0 :: rest' = [] ++ h :: r0 :: rest' by rfl)
      rw [hadj] at h1
      exact (List.nodup_cons.mp hnd).1 (h1 ▸ List.mem_cons_self r0 rest')
  · rw [q_reversePtr, if_neg hempty]
    have hprevh := (hmaps h (List.mem_cons_self h rest)).2
    have hres := revLoop_spec (h :: rest) hnd rest [] s h rfl hmaps
      (by intro z hz; simp at hz) x hx
    simp only [List.headD_cons] at hres
    rw [← hprevh] at hres
    exact hres

theorem spells_tail {s : DL} {x : ℕ} {l : List ℕ} (h : Spells s (x :: l)) :
    Spells s l := by
  match l, h with
  | [], _ => trivial
  | y :: l', h => exact h.2

theorem spells_adjacent {s : DL} : ∀ (u : List ℕ) {l : List ℕ} {x y : ℕ}
    {v : List ℕ}, Spells s l → l = u ++ x :: y :: v → s.nxt x = y := by
  intro u
  induction u with
  | nil =>
    intro l x y v hs hl
    subst hl
    exact hs.1
  | cons a u' ih =>
    intro l x y v hs hl
    subst hl
    exact ih (spells_tail hs) rfl

theorem spells_suffix {s : DL} : ∀ (t : List ℕ) {a r : List ℕ},
    Spells s a → t ++ r = a → Spells s r := by
  intro t
  induction t with
  | nil =>
    intro a r hs ht
    rwa [← ht] at hs
    
  | cons x t' ih =>
    intro a r hs ht
    subst ht
    exact ih (spells_tail hs) rfl

theorem mfTail_eq_writePrevs (s : DL) (t : ℕ) : ∀ l : List ℕ,
    mfTail s t l = writePrevs s t l := by
  intro l
  induction l generalizing s t with
  | nil => rfl
  | cons b bs ih =>
    show mfTail (setPrev s b t) b bs = _
    rw [ih]
    rfl

/-- Full specification of `merge_final`'s comparison loop: the emitted
prefix `E` and remainder `r` split the merged order, the loop returns
the last emitted node and the remainder, it writes both links along
`tail :: E`, and it touches no other pointer. -/
theorem mfLoop_spec (cmp : ℕ → ℕ → Int) : ∀ (fuel : ℕ) (a b : List ℕ) (s : DL)
    (tail : ℕ), a ≠ [] → b ≠ [] → a.length + b.length ≤ fuel →
    (tail :: (a ++ b)).Nodup →
    ∃ E r : List ℕ,
      lmerge cmp a b = E ++ r ∧ E ≠ [] ∧ r ≠ [] ∧
      (r <:+ a ∨ r <:+ b) ∧
      (mfLoop cmp fuel s tail a b).2.1 = E.getLastD tail ∧
      (mfLoop cmp fuel s tail a b).2.2 = r ∧
      (∀ (u : List ℕ) (x y : ℕ) (v : List ℕ), tail :: E = u ++ x :: y :: v →
        (mfLoop cmp fuel s tail a b).1.nxt x = y ∧
        (mfLoop cmp fuel s tail a b).1.prv y = x) ∧
      (∀ x : ℕ, x ∉ (tail :: E).dropLast →
        (mfLoop cmp fuel s tail a b).1.nxt x = s.nxt x) ∧
      (∀ y : ℕ, y ∉ E → (mfLoop cmp fuel s tail a b).1.prv y = s.prv y) := by
  intro fuel
  induction fuel with
  | zero =>
    intro a b s tail hane hbne hfuel hnd
    exfalso
    cases a with
    | nil => exact hane rfl
    | cons a0 as => simp only [List.length_cons, Nat.le_zero] at hfuel; omega
  | succ fuel ih =>
    intro a b s tail hane hbne hfuel hnd
    match a, hane with
    | a0 :: as, _ =>
    match b, hbne with
    | b0 :: bs, _ =>
    have hnd2 : ((a0 :: as) ++ b0 :: bs).Nodup := (List.nodup_cons.mp hnd).2
    have htl : tail ∉ (a0 :: as) ++ b0 :: bs := (List.nodup_cons.mp hnd).1
    by_cases hcab : cmp a0 b0 ≤ 0
    · match as with
      | [] =>
        have hres : mfLoop cmp (fuel + 1) s tail [a0] (b0 :: bs) =
            (setPrev (setNext s tail a0) a0 tail, a0, b0 :: bs) := by
          simp only [mfLoop]
          rw [if_pos hcab]
        refine ⟨[a0], b0 :: bs, ?_, by simp, by simp,
          Or.inr (List.suffix_refl _), ?_, ?_, ?_, ?_, ?_⟩
        · rw [lmerge_cons, if_pos hcab, lmerge_nil_left]
          rfl
        · rw [hres]
          rfl
        · rw [hres]
        · intro u x y v huv
          have hlen := congrArg List.length huv
          simp only [List.length_cons, List.length_append, List.length_nil]
            at hlen
          obtain rfl : u = [] := by
            cases u with
            | nil => rfl
            | cons u0 u' =>
              exfalso
              simp only [List.length_cons] at hlen
              omega
          obtain rfl : v = [] := by
            cases v with
            | nil => rfl
            | cons v0 v' =>
              exfalso
              simp only [List.length_cons] at hlen
              omega
          simp only [List.nil_append, List.cons.injEq, and_true] at huv
          obtain ⟨rfl, rfl⟩ := huv
          constructor
          · rw [hres]
            exact Function.update_same _ _ _
          · rw [hres]
            exact Function.update_same _ _ _
        · intro x hx
          have hxt : x ≠ tail := fun h => hx (h ▸ List.mem_cons_self x [])
          rw [hres]
          exact Function.update_noteq hxt _ _
        · intro y hy
          have hya : y ≠ a0 := fun h => hy (h ▸ List.mem_cons_self y [])
          rw [hres]
          exact Function.update_noteq hya _ _
      | a1 :: as' =>
        have hres : mfLoop cmp (fuel + 1) s tail (a0 :: a1 :: as') (b0 :: bs) =
            mfLoop cmp fuel (setPrev (setNext s tail a0) a0 tail) a0
              (a1 :: as') (b0 :: bs) := by
          simp only [mfLoop]
          rw [if_pos hcab]
        have hfuel' : (a1 :: as').length + (b0 :: bs).length ≤ fuel := by
          simp only [List.length_cons] at hfuel ⊢
          omega
        obtain ⟨E', r, heq, hEne, hrne, hsuf, hlast, hrem, hadj, hun, hup⟩ :=
          ih (a1 :: as') (b0 :: bs) (setPrev (setNext s tail a0) a0 tail) a0
            (by simp) (by simp) hfuel' hnd2
        have hE'sub : ∀ z ∈ E', z ∈ (a1 :: as') ++ b0 :: bs := by
          intro z hz
          have hz2 : z ∈ lmerge cmp (a1 :: as') (b0 :: bs) := by
            rw [heq]
            exact List.mem_append_left _ hz
          rcases (lmerge_mem cmp).mp hz2 with h2 | h2
          · exact List.mem_append_left _ h2
          · exact List.mem_append_right _ h2
        have ha0E : a0 ∉ E' := by
          intro h
          exact (List.nodup_cons.mp hnd2).1 (hE'sub a0 h)
        have htlE : tail ∉ a0 :: E' := by
          intro h
          rcases List.mem_cons.mp h with h2 | h2
          · exact htl (by rw [h2]; exact List.mem_cons_self _ _)
          · rcases List.mem_append.mp (hE'sub tail h2) with h3 | h3
            · exact htl (List.mem_append_left _ (List.mem_cons_of_mem _ h3))
            · exact htl (List.mem_append_right _ h3)
        refine ⟨a0 :: E', r, ?_, by simp, hrne, ?_, ?_, ?_, ?_, ?_, ?_⟩
        · rw [lmerge_cons, if_pos hcab, heq, List.cons_append]
        · rcases hsuf with h | h
          · exact Or.inl (h.trans (List.suffix_cons a0 _))
          · exact Or.inr h
        · rw [hres, hlast, List.getLastD_cons]
        · rw [hres]
          exact hrem
        · intro u x y v huv
          cases u with
          | nil =>
            simp only [List.nil_append, List.cons.injEq] at huv
            obtain ⟨rfl, rfl, rfl⟩ := huv
            constructor
            · rw [hres, hun tail (fun h => htlE ((List.dropLast_sublist _).subset h))]
              exact Function.update_same _ _ _
            · rw [hres, hup a0 ha0E]
              exact Function.update_same _ _ _
          | cons u0 u' =>
            simp only [List.cons_append, List.cons.injEq] at huv
            obtain ⟨-, huv2⟩ := huv
            constructor
            · rw [hres]
              exact (hadj u' x y v huv2).1
            · rw [hres]
              exact (hadj u' x y v huv2).2
        · intro x hx
          have hx' : x ∉ tail :: (a0 :: E').dropLast := hx
          have hxt : x ≠ tail := fun h => hx' (h ▸ List.mem_cons_self x _)
          have hxd : x ∉ (a0 :: E').dropLast :=
            fun h => hx' (List.mem_cons_of_mem _ h)
          rw [hres, hun x hxd]
          exact Function.update_noteq hxt _ _
        · intro y hy
          have hya : y ≠ a0 := fun h => hy (h ▸ List.mem_cons_self y _)
          have hyE : y ∉ E' := fun h => hy (List.mem_cons_of_mem _ h)
          rw [hres, hup y hyE]
          exact Function.update_noteq hya _ _
    · match bs with
      | [] =>
        have hres : mfLoop cmp (fuel + 1) s tail (a0 :: as) [b0] =
            (setPrev (setNext s tail b0) b0 tail, b0, a0 :: as) := by
          simp only [mfLoop]
          rw [if_neg hcab]
        refine ⟨[b0], a0 :: as, ?_, by simp, by simp,
          Or.inl (List.suffix_refl _), ?_, ?_, ?_, ?_, ?_⟩
        · rw [lmerge_cons, if_neg hcab, lmerge_nil_right]
          rfl
        · rw [hres]
          rfl
        · rw [hres]
        · intro u x y v huv
          have hlen := congrArg List.length huv
          simp only [List.length_cons, List.length_append, List.length_nil]
            at hlen
          obtain rfl : u = [] := by
            cases u with
            | nil => rfl
            | cons u0 u' =>
              exfalso
              simp only [List.length_cons] at hlen
              omega
          obtain rfl : v = [] := by
            cases v with
            | nil => rfl
            | cons v0 v' =>
              exfalso
              simp only [List.length_cons] at hlen
              omega
          simp only [List.nil_append, List.cons.injEq, and_true] at huv
          obtain ⟨rfl, rfl⟩ := huv
          constructor
          · rw [hres]
            exact Function.update_same _ _ _
          · rw [hres]
            exact Function.update_same _ _ _
        · intro x hx
          have hxt : x ≠ tail := fun h => hx (h ▸ List.mem_cons_self x [])
          rw [hres]
          exact Function.update_noteq hxt _ _
        · intro y hy
          have hyb : y ≠ b0 := fun h => hy (h ▸ List.mem_cons_self y [])
          rw [hres]
          exact Function.update_noteq hyb _ _
      | b1 :: bs' =>
        have hres : mfLoop cmp (fuel + 1) s tail (a0 :: as) (b0 :: b1 :: bs') =
            mfLoop cmp fuel (setPrev (setNext s tail b0) b0 tail) b0
              (a0 :: as) (b1 :: bs') := by
          simp only [mfLoop]
          rw [if_neg hcab]
        have hfuel' : (a0 :: as).length + (b1 :: bs').length ≤ fuel := by
          simp only [List.length_cons] at hfuel ⊢
          omega
        have hpm : ((a0 :: as) ++ b0 :: b1 :: bs').Perm
            (b0 :: ((a0 :: as) ++ b1 :: bs')) := List.perm_middle
        have hnd2' : (b0 :: ((a0 :: as) ++ b1 :: bs')).Nodup := hpm.nodup hnd2
        obtain ⟨E', r, heq, hEne, hrne, hsuf, hlast, hrem, hadj, hun, hup⟩ :=
          ih (a0 :: as) (b1 :: bs') (setPrev (setNext s tail b0) b0 tail) b0
            (by simp) (by simp) hfuel' hnd2'
        have hE'sub : ∀ z ∈ E', z ∈ (a0 :: as) ++ b1 :: bs' := by
          intro z hz
          have hz2 : z ∈ lmerge cmp (a0 :: as) (b1 :: bs') := by
            rw [heq]
            exact List.mem_append_left _ hz
          rcases (lmerge_mem cmp).mp hz2 with h2 | h2
          · exact List.mem_append_left _ h2
          · exact List.mem_append_right _ h2
        have hb0E : b0 ∉ E' := by
          intro h
          exact (List.nodup_cons.mp hnd2').1 (hE'sub b0 h)
        have htlE : tail ∉ b0 :: E' := by
          intro h
          rcases List.mem_cons.mp h with h2 | h2
          · exact htl (by
              rw [h2]
              exact List.mem_append_right _ (List.mem_cons_self _ _))
          · rcases List.mem_append.mp (hE'sub tail h2) with h3 | h3
            · exact htl (List.mem_append_left _ h3)
            · exact htl (List.mem_append_right _ (List.mem_cons_of_mem _ h3))
        refine ⟨b0 :: E', r, ?_, by simp, hrne, ?_, ?_, ?_, ?_, ?_, ?_⟩
        · rw [lmerge_cons, if_neg hcab, heq, List.cons_append]
        · rcases hsuf with h | h
          · exact Or.inl h
          · exact Or.inr (h.trans (List.suffix_cons b0 _))
        · rw [hres, hlast, List.getLastD_cons]
        · rw [hres]
          exact hrem
        · intro u x y v huv
          cases u with
          | nil =>
            simp only [List.nil_append, List.cons.injEq] at huv
            obtain ⟨rfl, rfl, rfl⟩ := huv
            constructor
            · rw [hres, hun tail (fun h => htlE ((List.dropLast_sublist _).subset h))]
              exact Function.update_same _ _ _
            · rw [hres, hup b0 hb0E]
              exact Function.update_same _ _ _
          | cons u0 u' =>
            simp only [List.cons_append, List.cons.injEq] at huv
            obtain ⟨-, huv2⟩ := huv
            constructor
            · rw [hres]
              exact (hadj u' x y v huv2).1
            · rw [hres]
              exact (hadj u' x y v huv2).2
        · intro x hx
          have hx' : x ∉ tail :: (b0 :: E').dropLast := hx
          have hxt : x ≠ tail := fun h => hx' (h ▸ List.mem_cons_self x _)
          have hxd : x ∉ (b0 :: E').dropLast :=
            fun h => hx' (List.mem_cons_of_mem _ h)
          rw [hres, hun x hxd]
          exact Function.update_noteq hxt _ _
        · intro y hy
          have hyb : y ≠ b0 := fun h => hy (h ▸ List.mem_cons_self y _)
          have hyE : y ∉ E' := fun h => hy (List.mem_cons_of_mem _ h)
          rw [hres, hup y hyE]
          exact Function.update_noteq hyb _ _

/-- An adjacent pair of `A ++ B` lies inside `A`, straddles the seam
(`x` last of `A`, `y` head of `B`), or lies inside `B`. -/
theorem adj_append : ∀ (u A B : List ℕ) (x y : ℕ) (v : List ℕ),
    A ++ B = u ++ x :: y :: v →
    (∃ u' v', A = u' ++ x :: y :: v') ∨
    (∃ u', A = u' ++ [x] ∧ ∃ v', B = y :: v') ∨
    (∃ u' v', B = u' ++ x :: y :: v') := by
  intro u
  induction u with
  | nil =>
    intro A B x y v h
    simp only [List.nil_append] at h
    match A, h with
    | [], h =>
      exact Or.inr (Or.inr ⟨[], v, by rw [← h]; rfl⟩)
    | [a], h =>
      simp only [List.cons_append, List.nil_append, List.cons.injEq] at h
      obtain ⟨rfl, h2⟩ := h
      exact Or.inr (Or.inl ⟨[], rfl, v, h2⟩)
    | a :: a2 :: A', h =>
      simp only [List.cons_append, List.cons.injEq] at h
      obtain ⟨rfl, rfl, h3⟩ := h
      exact Or.inl ⟨[], A', by rw [List.nil_append]⟩
  | cons u0 u' ih =>
    intro A B x y v h
    match A, h with
    | [], h =>
      simp only [List.nil_append] at h
      exact Or.inr (Or.inr ⟨u0 :: u', v, by rw [h]⟩)
    | a :: A2, h =>
      simp only [List.cons_append, List.cons.injEq] at h
      obtain ⟨rfl, h2⟩ := h
      rcases ih A2 B x y v h2 with ⟨u2, v2, h3⟩ | ⟨u2, h3, v2, h4⟩ |
          ⟨u2, v2, h3⟩
      · exact Or.inl ⟨a :: u2, v2, by rw [h3]; rfl⟩
      · exact Or.inr (Or.inl ⟨a :: u2, by rw [h3]; rfl, v2, h4⟩)
      · exact Or.inr (Or.inr ⟨u2, v2, h3⟩)

/-- `merge_final` rebuilds the full cyclic links: after it runs on two
non-empty NUL-terminated chains hanging off sentinel `h`, every node of
`h :: lmerge cmp a b` has the `next`/`prev` maps of that cycle. -/
theorem merge_finalPtr_maps (cmp : ℕ → ℕ → Int) (s : DL) (h : ℕ)
    (a b : List ℕ) (hane : a ≠ []) (hbne : b ≠ [])
    (hnd : (h :: (a ++ b)).Nodup) (hsa : Spells s a) (hsb : Spells s b) :
    ∀ x ∈ h :: lmerge cmp a b,
      (merge_finalPtr cmp s h a b).nxt x = cyclicNext (h :: lmerge cmp a b) x ∧
      (merge_finalPtr cmp s h a b).prv x = cyclicPrev (h :: lmerge cmp a b) x := by
  obtain ⟨E, r, heq, hEne, hrne, hsuf, hlast, hrem, hadj0, hun0, hup0⟩ :=
    mfLoop_spec cmp (a.length + b.length) a b s h hane hbne le_rfl hnd
  obtain ⟨r0, r', rfl⟩ : ∃ r0 r', r = r0 :: r' := by
    cases r with
    | nil => exact absurd rfl hrne
    | cons r0 r' => exact ⟨r0, r', rfl⟩
  obtain ⟨e0, E2, rfl⟩ : ∃ e0 E2, E = e0 :: E2 := by
    cases E with
    | nil => exact absurd rfl hEne
    | cons e0 E2 => exact ⟨e0, E2, rfl⟩
  obtain ⟨S1, tE, rr, hres⟩ :
      ∃ S1 tE rr, mfLoop cmp (a.length + b.length) s h a b = (S1, tE, rr) :=
    ⟨_, _, _, rfl⟩
  rw [hres] at hlast hrem hadj0 hun0 hup0
  have hrr : rr = r0 :: r' := hrem
  subst hrr
  have htE : tE = (e0 :: E2).getLastD h := hlast
  have hperm : (lmerge cmp a b).Perm (a ++ b) :=
    lmerge_perm cmp (a.length + b.length) a b le_rfl
  have hndc : (h :: lmerge cmp a b).Nodup := ((hperm.cons h).symm).nodup hnd
  have hneC : h :: lmerge cmp a b ≠ [] := by simp
  have hndc' : (h :: ((e0 :: E2) ++ r0 :: r')).Nodup := by
    rw [← heq]
    exact hndc
  have hh2 : h ∉ (e0 :: E2) ++ r0 :: r' := (List.nodup_cons.mp hndc').1
  have hndM : ((e0 :: E2) ++ r0 :: r').Nodup := (List.nodup_cons.mp hndc').2
  obtain ⟨hndE, hndr, hdisj⟩ := List.nodup_append.mp hndM
  have hdisjhE : ∀ z ∈ h :: e0 :: E2, z ∉ r0 :: r' := by
    intro z hz hzr
    rcases List.mem_cons.mp hz with rfl | hz2
    · exact hh2 (List.mem_append_right _ hzr)
    · exact hdisj hz2 hzr
  have hndhE : (h :: e0 :: E2).Nodup := by
    rw [List.nodup_cons]
    exact ⟨fun hhE => hh2 (List.mem_append_left _ hhE), hndE⟩
  have htEhE : tE ∈ h :: e0 :: E2 := by
    rw [htE, List.getLastD_cons]
    exact List.mem_cons_of_mem _ (List.getLastD_mem_cons E2 e0)
  have hndtr : (tE :: r0 :: r').Nodup := by
    rw [List.nodup_cons]
    exact ⟨hdisjhE tE htEhE, hndr⟩
  obtain ⟨P, T, hPT⟩ :
      ∃ P T, writePrevs (setNext S1 tE r0) tE (r0 :: r') = (P, T) :=
    ⟨_, _, rfl⟩
  have hPnxt : P.nxt = Function.update S1.nxt tE r0 := by
    have h1 := writePrevs_nxt (setNext S1 tE r0) tE (r0 :: r')
    rw [hPT] at h1
    exact h1
  have hPun : ∀ y ∉ r0 :: r', P.prv y = S1.prv y := by
    intro y hy
    have h1 := writePrevs_untouched (setNext S1 tE r0) tE (r0 :: r') y hy
    rw [hPT] at h1
    exact h1
  have hPadj : ∀ (u : List ℕ) (x y : ℕ) (v : List ℕ),
      tE :: r0 :: r' = u ++ x :: y :: v → P.prv y = x := by
    intro u x y v huv
    have h1 := writePrevs_adj (setNext S1 tE r0) tE (r0 :: r') u x y v hndtr huv
    rw [hPT] at h1
    exact h1
  have hT : T = (r0 :: r').getLastD tE := by
    have h1 := writePrevs_snd (setNext S1 tE r0) tE (r0 :: r')
    rw [hPT] at h1
    exact h1
  have hTmem : T ∈ r0 :: r' := by
    rw [hT, List.getLastD_cons]
    exact List.getLastD_mem_cons r' r0
  have hF : merge_finalPtr cmp s h a b = setPrev (setNext P T h) h T := by
    simp only [merge_finalPtr, hres]
    rw [mfTail_eq_writePrevs, hPT]
  have hclast : (h :: lmerge cmp a b).getLastD 0 = T := by
    rw [heq, List.getLastD_cons, getLastD_append_cons, hT, List.getLastD_cons,
      List.getLastD_cons]
  have hgl : (h :: lmerge cmp a b).getLast hneC = T := by
    rw [getLast_eq_getLastD hneC 0, hclast]
  have hadjF : ∀ (u : List ℕ) (x y : ℕ) (v : List ℕ),
      h :: lmerge cmp a b = u ++ x :: y :: v →
      (setPrev (setNext P T h) h T).nxt x = y ∧
      (setPrev (setNext P T h) h T).prv y = x := by
    intro u x y v huv
    rw [heq] at huv
    have huv' : (h :: e0 :: E2) ++ (r0 :: r') = u ++ x :: y :: v := by
      rw [List.cons_append]
      exact huv
    rcases adj_append u (h :: e0 :: E2) (r0 :: r') x y v huv' with
      ⟨u2, v2, hA⟩ | ⟨u2, hA, v2, hB⟩ | ⟨u2, v2, hB⟩
    · have hxmem : x ∈ h :: e0 :: E2 := by
        rw [hA]
        exact List.mem_append_right _ (List.mem_cons_self _ _)
      have hymem : y ∈ h :: e0 :: E2 := by
        rw [hA]
        exact List.mem_append_right _
          (List.mem_cons_of_mem _ (List.mem_cons_self _ _))
      have hxT : x ≠ T := fun hxy =>
        hdisjhE x hxmem (by rw [hxy]; exact hTmem)
      have hne2 : h :: e0 :: E2 ≠ [] := by simp
      have hxtE : x ≠ tE := by
        rw [htE]
        have h1 := ne_getLast_of_succ hndhE hne2 hA
        rw [getLast_eq_getLastD hne2 0, List.getLastD_cons] at h1
        exact h1
      have hyh : y ≠ h := ne_headD_of_later hndhE hA
      have hyr : y ∉ r0 :: r' := hdisjhE y hymem
      constructor
      · calc (setPrev (setNext P T h) h T).nxt x
            = Function.update P.nxt T h x := rfl
          _ = P.nxt x := Function.update_noteq hxT _ _
          _ = Function.update S1.nxt tE r0 x := by rw [hPnxt]
          _ = S1.nxt x := Function.update_noteq hxtE _ _
          _ = y := (hadj0 u2 x y v2 hA).1
      · calc (setPrev (setNext P T h) h T).prv y
            = Function.update P.prv h T y := rfl
          _ = P.prv y := Function.update_noteq hyh _ _
          _ = S1.prv y := hPun y hyr
          _ = x := (hadj0 u2 x y v2 hA).2
    · injection hB with hB1 hB2
      subst hB1
      subst hB2
      have hxtE : x = tE := by
        rw [htE]
        have h1 : (h :: e0 :: E2).getLastD 0 = x := by
          rw [hA, getLastD_append_cons]
          rfl
        rw [List.getLastD_cons] at h1
        exact h1.symm
      rw [hxtE]
      constructor
      · have htET : tE ≠ T := fun hq =>
          hdisjhE tE htEhE (by rw [hq]; exact hTmem)
        calc (setPrev (setNext P T h) h T).nxt tE
            = Function.update P.nxt T h tE := rfl
          _ = P.nxt tE := Function.update_noteq htET _ _
          _ = Function.update S1.nxt tE r0 tE := by rw [hPnxt]
          _ = r0 := Function.update_same _ _ _
      · have hr0h : r0 ≠ h := by
          intro hq
          refine hdisjhE h (List.mem_cons_self _ _) ?_
          rw [← hq]
          exact List.mem_cons_self _ _
        calc (setPrev (setNext P T h) h T).prv r0
            = Function.update P.prv h T r0 := rfl
          _ = P.prv r0 := Function.update_noteq hr0h _ _
          _ = tE := hPadj [] tE r0 r' rfl
    · have hxmem : x ∈ r0 :: r' := by
        rw [hB]
        exact List.mem_append_right _ (List.mem_cons_self _ _)
      have hymem : y ∈ r0 :: r' := by
        rw [hB]
        exact List.mem_append_right _
          (List.mem_cons_of_mem _ (List.mem_cons_self _ _))
      have hner : r0 :: r' ≠ [] := by simp
      have hxT : x ≠ T := by
        have h1 := ne_getLast_of_succ hndr hner hB
        rw [getLast_eq_getLastD hner tE, ← hT] at h1
        exact h1
      have hxtE : x ≠ tE := by
        intro hq
        refine hdisjhE tE htEhE ?_
        rw [← hq]
        exact hxmem
      have hxhE : x ∉ (h :: e0 :: E2).dropLast := by
        intro hq
        exact hdisjhE x ((List.dropLast_sublist _).subset hq) hxmem
      have hsr : Spells s (r0 :: r') := by
        rcases hsuf with hsf | hsf
        · obtain ⟨t, ht⟩ := hsf
          exact spells_suffix t hsa ht
        · obtain ⟨t, ht⟩ := hsf
          exact spells_suffix t hsb ht
      have hyh : y ≠ h := by
        intro hq
        exact hdisjhE h (List.mem_cons_self _ _) (hq ▸ hymem)
      constructor
      · calc (setPrev (setNext P T h) h T).nxt x
            = Function.update P.nxt T h x := rfl
          _ = P.nxt x := Function.update_noteq hxT _ _
          _ = Function.update S1.nxt tE r0 x := by rw [hPnxt]
          _ = S1.nxt x := Function.update_noteq hxtE _ _
          _ = s.nxt x := hun0 x hxhE
          _ = y := spells_adjacent u2 hsr hB
      · calc (setPrev (setNext P T h) h T).prv y
            = Function.update P.prv h T y := rfl
          _ = P.prv y := Function.update_noteq hyh _ _
          _ = x := hPadj (tE :: u2) x y v2 (by rw [List.cons_append, hB])
  have hlastnF : (setPrev (setNext P T h) h T).nxt
      ((h :: lmerge cmp a b).getLast hneC) = (h :: lmerge cmp a b).headD 0 := by
    rw [hgl]
    exact Function.update_same _ _ _
  have hheadpF : (setPrev (setNext P T h) h T).prv
      ((h :: lmerge cmp a b).headD 0) = (h :: lmerge cmp a b).getLast hneC := by
    rw [hgl]
    exact Function.update_same _ _ _
  intro x hx
  rw [hF]
  exact maps_of_adj hndc hneC hadjF hlastnF hheadpF x hx

/-- C2: After `q_sort` (relink phase, `queue.c` lines 455-465),
`list_sort`'s `merge_final` (`list_sort.c` lines 49-100), or `q_reverse`
(`queue.c` lines 383-395) completes on a well-formed ring, the ring
invariant holds again: every node `n` of the resulting ring (sentinel
included) satisfies `n->next->prev == n` and `n->prev->next == n`, the
pointer maps stay within the ring, and the sentinel is reachable from
every node by following `next` links. -/
theorem ring_invariant_restored :
    (∀ (s : DL) (h : ℕ) (chain : List ℕ), (h :: chain).Nodup →
      RingInv (q_sortPtr s h chain) h (h :: chain)) ∧
    (∀ (cmp : ℕ → ℕ → Int) (s : DL) (h : ℕ) (a b : List ℕ),
      a ≠ [] → b ≠ [] → (h :: (a ++ b)).Nodup → Spells s a → Spells s b →
      RingInv (merge_finalPtr cmp s h a b) h (h :: lmerge cmp a b)) ∧
    (∀ (s : DL) (h : ℕ) (rest : List ℕ), (h :: rest).Nodup →
      (∀ x ∈ h :: rest, s.nxt x = cyclicNext (h :: rest) x ∧
        s.prv x = cyclicPrev (h :: rest) x) →
      RingInv (q_reversePtr s h (rest.length + 1)) h (h :: rest)) := by
  refine ⟨?_, ?_, ?_⟩
  · intro s h chain hnd
    exact ringInv_of_cyclic _ (h :: chain) (h :: chain) (List.Perm.refl _) hnd
      h (List.mem_cons_self _ _) (q_sortPtr_maps s h chain hnd)
  · intro cmp s h a b hane hbne hnd hsa hsb
    have hperm : (lmerge cmp a b).Perm (a ++ b) :=
      lmerge_perm cmp (a.length + b.length) a b le_rfl
    have hndc : (h :: lmerge cmp a b).Nodup := ((hperm.cons h).symm).nodup hnd
    exact ringInv_of_cyclic _ (h :: lmerge cmp a b) (h :: lmerge cmp a b)
      (List.Perm.refl _) hndc h (List.mem_cons_self _ _)
      (merge_finalPtr_maps cmp s h a b hane hbne hnd hsa hsb)
  · intro s h rest hnd hmaps
    refine ringInv_of_cyclic _ (h :: rest) ((h :: rest).reverse)
      (List.reverse_perm _) hnd h (List.mem_cons_self _ _) ?_
    intro x hx
    obtain ⟨h1, h2⟩ := q_reversePtr_maps s h rest hnd hmaps x hx
    refine ⟨h1, ?_⟩
    rw [cyclicPrev_reverse]
    exact h2

/-- Witness for `ring_invariant_restored`: concrete two- and
three-node rings for the three operations. -/
theorem ring_invariant_restored_witness :
    RingInv (q_sortPtr ⟨id, id⟩ 0 [1, 2]) 0 (0 :: [1, 2]) ∧
    RingInv (merge_finalPtr (fun x y => (x : Int) - y) ⟨id, id⟩ 0 [1] [2]) 0
      (0 :: lmerge (fun x y => (x : Int) - y) [1] [2]) ∧
    RingInv (q_reversePtr ⟨fun x => 1 - x, fun x => 1 - x⟩ 0
      (List.length [1] + 1)) 0 (0 :: [1]) :=
  ⟨ring_invariant_restored.1 ⟨id, id⟩ 0 [1, 2] (by decide),
   ring_invariant_restored.2.1 (fun x y => (x : Int) - y) ⟨id, id⟩ 0 [1] [2]
     (by decide) (by decide) (by decide) trivial trivial,
   ring_invariant_restored.2.2 ⟨fun x => 1 - x, fun x => 1 - x⟩ 0 [1]
     (by decide) (by decide)⟩
